import Mathlib

set_option maxHeartbeats 1000000
set_option maxRecDepth 4000

/-!
Shallow embedding of the canvas-state and history core of the `pixel` raster
editor (`file.go`, `layer.go`, `system_file.go`).

Modelling conventions:
* Go maps (`map[IntVec2]rl.Color`, `map[IntVec2]PixelStateData`) are modelled
  as functions into `Option`; a missing key is `none`, and reading a missing
  key with Go's zero-value default is `Option.getD`.
* Go slices are `List`s; a Go runtime out-of-range index or slice is the
  explicit `GoResult.panicked` outcome, and a Go `error` return is
  `GoResult.err` (the mutated receiver is carried in `GoResult.ok`; on an
  error return the Go code has not mutated the receiver).
* Render textures (`rl.RenderTexture2D`) are modelled as total functions
  `IntVec2 → Color`; GPU draws blend with the compositing rule below.
-/

/-- Modelled from the spec (its defining file is not among the provided
sources; spec §3: "pair of integers (x, y); used as a key — must have value
equality and a stable hash"): a 2D integer coordinate. -/
structure IntVec2 where
  x : Int
  y : Int
deriving DecidableEq

/-- raylib's `rl.Color` (external dependency of the source): an RGBA colour
with four 8-bit channels, here stored as naturals. -/
structure Color where
  r : Nat
  g : Nat
  b : Nat
  a : Nat
deriving DecidableEq

/-- raylib's `rl.Transparent`: the all-zero colour, the spec's "empty pixel"
sentinel (alpha 0). -/
def Color.Transparent : Color := ⟨0, 0, 0, 0⟩

/-- raylib's `rl.Black`. -/
def Color.Black : Color := ⟨0, 0, 0, 255⟩

/-- raylib's `rl.Red` (230, 41, 55, 255). -/
def Color.Red : Color := ⟨230, 41, 55, 255⟩

/-- raylib's `rl.Blue` (0, 121, 241, 255). -/
def Color.Blue : Color := ⟨0, 121, 241, 255⟩

/-- Modelled from the spec: `BlendWithOpacity` is called by `file.go` but its
defining file is not among the provided sources.  Spec §4.2: "if the new color
is fully transparent, the destination is unchanged; otherwise standard
over-compositing using the new color's alpha".  For a fully opaque new colour
this yields the new colour exactly. -/
def BlendWithOpacity (old c : Color) : Color :=
  if c.a = 0 then old
  else
    let outA := c.a + old.a * (255 - c.a) / 255
    { r := (c.r * c.a + old.r * (old.a * (255 - c.a) / 255)) / outA
      g := (c.g * c.a + old.g * (old.a * (255 - c.a) / 255)) / outA
      b := (c.b * c.a + old.b * (old.a * (255 - c.a) / 255)) / outA
      a := outA }

/-- A Go `map[IntVec2]rl.Color`. -/
def PixelMap := IntVec2 → Option Color

/-- Go map assignment `m[k] = v`. -/
def PixelMap.insert (m : PixelMap) (k : IntVec2) (v : Color) : PixelMap :=
  fun p => if p = k then some v else m p

/-- Go `make(map[IntVec2]rl.Color)`. -/
def PixelMap.empty : PixelMap := fun _ => none

/-- `PixelStateData` (file.go): what the pixel state was previously and
currently; `Prev` is used by undo and `Current` by redo. -/
structure PixelStateData where
  Prev : Color
  Current : Color
deriving DecidableEq

/-- A Go `map[IntVec2]PixelStateData`. -/
def PSMap := IntVec2 → Option PixelStateData

/-- Go map assignment `m[k] = v`. -/
def PSMap.insert (m : PSMap) (k : IntVec2) (v : PixelStateData) : PSMap :=
  fun p => if p = k then some v else m p

/-- Go `make(map[IntVec2]PixelStateData)`. -/
def PSMap.empty : PSMap := fun _ => none

/-- `rl.DrawPixel` executed inside `rl.BeginTextureMode(canvas)`: the GPU
writes the drawn colour at the target texel, alpha-blending it over the
existing texel (this is why the source treats texture drawing as additive). -/
def texDraw (canvas : IntVec2 → Color) (p : IntVec2) (c : Color) : IntVec2 → Color :=
  fun q => if q = p then BlendWithOpacity (canvas p) c else canvas q

/-- `Layer` (layer.go). -/
structure Layer where
  Hidden : Bool
  Canvas : IntVec2 → Color
  hasInitialFill : Bool
  InitialFillColor : Color
  Name : String
  PixelData : PixelMap

/-- Modelled from the spec: `Layer.Redraw` is called throughout `file.go` but
its defining file is not among the provided sources.  Spec §4.1: "redraw():
clears the surface and re-emits every entry of `pixels`". -/
def Layer.Redraw (l : Layer) : Layer :=
  { l with Canvas := fun p => (l.PixelData p).getD Color.Transparent }

/-- `ResizeDirection` (file.go): which edge/corner a resize anchors to. -/
inductive ResizeDirection where
  | tl | tc | tr | cl | cc | cr | bl | bc | br
deriving DecidableEq

/-- `HistoryLayerAction` (file.go). -/
inductive HistoryLayerAction where
  | delete | create | moveUp | moveDown
deriving DecidableEq

/-- `Animation` (file.go).  The `Timing float32` field is omitted: it is
floating point, is never read by any modelled operation, and no claim
depends on it. -/
structure Animation where
  Name : String
  FrameStart : Int
  FrameEnd : Int
deriving DecidableEq

/-- The history entry types of file.go (`CompoundHistory`, `HistoryLayer`,
`HistoryPixel`, `HistoryResize`), which the source stores as `interface{}`
values and inspects by runtime type, modelled as one closed sum. -/
inductive HistoryAction where
  | compound (Actions : List HistoryAction)
  | layer (Action : HistoryLayerAction) (LayerIndex : Nat)
  | pixel (PixelState : PSMap) (LayerIndex : Nat)
  | resize (PrevLayerState CurrentLayerState : List PixelMap)
           (PrevWidth PrevHeight CurrentWidth CurrentHeight : Int)

/-- Outcome of running a Go method: normal return, an explicit `error`
return, or a runtime panic (out-of-range index or slice). -/
inductive GoResult (α : Type) where
  | ok (value : α)
  | err (msg : String)
  | panicked
deriving DecidableEq

/-- `File` (file.go), restricted to the fields read or written by the
modelled operations.  Omitted fields (file paths, tools, brush sizes, UI
flags, clipboard, tile sizes, resize-gesture flag) are never touched by the
operations below. -/
structure File where
  Layers : List Layer
  CurrentLayer : Nat
  Animations : List Animation
  CurrentAnimation : Int
  History : List HistoryAction
  HistoryMaxActions : Nat
  historyOffset : Nat
  deletedLayers : List Layer
  DoingSelection : Bool
  Selection : PixelMap
  SelectionMoving : Bool
  CanvasWidth : Int
  CanvasHeight : Int
  CanvasWidthResizePreview : Int
  CanvasHeightResizePreview : Int
  CanvasDirectionResizePreview : ResizeDirection

/-- The effective colour of layer `i` at coordinate `p`: the `PixelData`
entry, or the transparent sentinel when the key is absent (Go's zero value).
Out-of-range layers read as transparent; no modelled operation relies on
that case. -/
def layerColor (f : File) (i : Nat) (p : IntVec2) : Color :=
  match f.Layers.get? i with
  | some l => (l.PixelData p).getD Color.Transparent
  | none => Color.Transparent

/-- The bounds test of `File.DrawPixel` (file.go line 79):
`x >= 0 && y >= 0 && x < f.CanvasWidth && y < f.CanvasHeight`. -/
def inCanvas (f : File) (x y : Int) : Prop :=
  0 ≤ x ∧ 0 ≤ y ∧ x < f.CanvasWidth ∧ y < f.CanvasHeight

instance (f : File) (x y : Int) : Decidable (inCanvas f x y) := by
  unfold inCanvas; exact inferInstance

/-- The existing colour `DrawPixel` reads from the current layer
(transparent when the key is absent). -/
def drawOldColor (f : File) (x y : Int) : Color := layerColor f f.CurrentLayer ⟨x, y⟩

/-- The colour `DrawPixel` will store: the incoming colour, blended over the
existing one unless the incoming colour is the transparent sentinel
(file.go lines 86–88). -/
def drawBlended (f : File) (x y : Int) (c : Color) : Color :=
  if c = Color.Transparent then c else BlendWithOpacity (drawOldColor f x y) c

/-- The pixel-write tail of `DrawPixel` (file.go lines 105–114): store the
colour in the current layer's `PixelData` and draw it on the layer texture
(black is drawn when the colour is transparent). -/
def File.writeCurrentPixel (f : File) (x y : Int) (c : Color) : File :=
  match f.Layers.get? f.CurrentLayer with
  | some l =>
      let drawn := if c = Color.Transparent then Color.Black else c
      let l2 := { l with PixelData := l.PixelData.insert ⟨x, y⟩ c,
                         Canvas := texDraw l.Canvas ⟨x, y⟩ drawn }
      { f with Layers := f.Layers.set f.CurrentLayer l2 }
  | none => f

/-- `File.DrawPixel` (file.go lines 75–117).  The current-layer lookup
happens before the `saveToHistory` test; when the blended colour differs
from the old one the last history element is read unconditionally (a panic
when the history is empty), and when that element is a `HistoryPixel` its
delta at `(x, y)` is overwritten with `{Prev: oldColor, Current: blended}`. -/
def File.DrawPixel (f : File) (x y : Int) (color : Color) (saveToHistory : Bool) : GoResult File :=
  match f.Layers.get? f.CurrentLayer with
  | none => .panicked
  | some layer =>
    if saveToHistory then
      if inCanvas f x y then
        let oldColor := (layer.PixelData ⟨x, y⟩).getD Color.Transparent
        let color2 := if color = Color.Transparent then color else BlendWithOpacity oldColor color
        if oldColor = color2 then .ok (f.writeCurrentPixel x y color2)
        else
          match f.History.getLast? with
          | none => .panicked
          | some (.pixel ps li) =>
              .ok (File.writeCurrentPixel
                ({ f with History :=
                    f.History.dropLast ++ [.pixel (ps.insert ⟨x, y⟩ ⟨oldColor, color2⟩) li] })
                x y color2)
          | some _ => .ok (f.writeCurrentPixel x y color2)
      else .ok f
    else .ok f

/-- Go slice expression `l[lo:hi]`. -/
def goSlice {α : Type} (l : List α) (lo hi : Nat) : List α := (l.drop lo).take (hi - lo)

/-- `File.AppendHistory` (file.go lines 703–713): truncate everything past
the undo cursor, reset the cursor, then append, evicting through the slice
`History[len-max+1 : max]` when at capacity.  (That Go slice expression is
well-formed exactly when `len ≤ max`, the reachable case; the model uses
drop/take with the same bounds.) -/
def File.AppendHistory (f : File) (action : HistoryAction) : File :=
  { f with
      History :=
        (if f.HistoryMaxActions ≤ (f.History.take (f.History.length - f.historyOffset)).length then
          goSlice (f.History.take (f.History.length - f.historyOffset))
            ((f.History.take (f.History.length - f.historyOffset)).length - f.HistoryMaxActions + 1)
            f.HistoryMaxActions
        else
          f.History.take (f.History.length - f.historyOffset)) ++ [action],
      historyOffset := 0 }

/-- `File.SetCurrentLayer` (file.go). -/
def File.SetCurrentLayer (f : File) (index : Nat) : File := { f with CurrentLayer := index }

/-- `File.RestoreLayer` (file.go lines 595–610): pop the most recently
deleted layer and reinsert it at `index`. -/
def File.RestoreLayer (f : File) (index : Nat) : GoResult File :=
  if h : f.deletedLayers.length = 0 then .err "No layers to restore"
  else if index ≤ f.Layers.length then
    .ok { f with
      Layers := f.Layers.take index ++
        f.deletedLayers.getLast (fun heq => h (by simp [heq])) :: f.Layers.drop index,
      deletedLayers := f.deletedLayers.dropLast }
  else .panicked

/-- `File.DeleteLayer` (file.go lines 574–591): refuses when only two layers
(one addressable plus the reserved preview layer) remain; otherwise moves the
layer onto the deleted stack, optionally records history, and clamps the
current layer index. -/
def File.DeleteLayer (f : File) (index : Nat) (appendHistory : Bool) : GoResult File :=
  if 2 < f.Layers.length then
    match f.Layers.get? index with
    | some l =>
        let f1 := { f with deletedLayers := f.deletedLayers ++ [l],
                           Layers := f.Layers.take index ++ f.Layers.drop (index + 1) }
        let f2 := if appendHistory then f1.AppendHistory (.layer .delete index) else f1
        .ok (if f2.Layers.length - 2 < f2.CurrentLayer
             then f2.SetCurrentLayer (f2.Layers.length - 2) else f2)
    | none => .panicked
  else .err "Couldn't delete layer as it's the only one visible"

/-- `File.MoveLayerUp` (file.go lines 665–678). -/
def File.MoveLayerUp (f : File) (index : Nat) (appendHistory : Bool) : GoResult File :=
  if h : index + 2 < f.Layers.length then
    let toMove := f.Layers.get ⟨index, by omega⟩
    let removed := f.Layers.take index ++ f.Layers.drop (index + 1)
    match removed.get? index with
    | some atIndex =>
        let f1 := { f with Layers := removed.take index ++ atIndex :: toMove :: removed.drop (index + 1) }
        .ok (if appendHistory then f1.AppendHistory (.layer .moveUp index) else f1)
    | none => .panicked
  else .err "Couldn't move layer up"

/-- `File.MoveLayerDown` (file.go lines 681–699). -/
def File.MoveLayerDown (f : File) (index : Nat) (appendHistory : Bool) : GoResult File :=
  if 0 < index then
    match f.Layers.get? index with
    | some toMove =>
        let removed := f.Layers.take index ++ f.Layers.drop (index + 1)
        let newLayers :=
          if index - 1 = 0 then toMove :: (removed.take index ++ removed.drop index)
          else removed.take (index - 1) ++ toMove :: removed.drop (index - 1)
        let f1 := { f with Layers := newLayers }
        .ok (if appendHistory then f1.AppendHistory (.layer .moveDown index) else f1)
    | none => .panicked
  else .err "Couldn't move layer down"

/-- The per-anchor offset table of `Layer.Resize` (layer.go lines 34–62).
Division on `Int` here models Go's truncating integer division; no claim
depends on the rounding mode. -/
def resizeOffsets (dir : ResizeDirection) (w h nw nh : Int) : Int × Int :=
  match dir with
  | .tl => (0, 0)
  | .tc => ((w - nw) / 2, 0)
  | .tr => (w - nw, 0)
  | .cl => (0, (h - nh) / 2)
  | .cc => ((w - nw) / 2, (h - nh) / 2)
  | .cr => (w - nw, (h - nh) / 2)
  | .bl => (0, h - nh)
  | .bc => ((w - nw) / 2, h - nh)
  | .br => (w - nw, h - nh)

/-- `Layer.Resize` (layer.go lines 21–74).  It allocates a fresh texture of
the requested size, computes offsets from the *global* current file's canvas
size, resize-preview size and resize-preview direction (the `direction`
parameter is ignored by the source), and re-draws the translated pixels; it
never modifies `PixelData`.  Here `ctx` stands for the `CurrentFile` global,
and drawing outside the new texture is clipped. -/
def Layer.Resize (l : Layer) (width height : Int) (_dir : ResizeDirection) (ctx : File) : Layer :=
  let w := ctx.CanvasWidth
  let h := ctx.CanvasHeight
  let nw := ctx.CanvasWidthResizePreview
  let nh := ctx.CanvasHeightResizePreview
  let off := resizeOffsets ctx.CanvasDirectionResizePreview w h nw nh
  { l with Canvas := fun p =>
      if 0 ≤ p.x ∧ 0 ≤ p.y ∧ p.x < width ∧ p.y < height ∧ p.x + off.1 < w ∧ p.y + off.2 < h then
        match l.PixelData ⟨p.x + off.1, p.y + off.2⟩ with
        | some c => c
        | none => Color.Transparent
      else Color.Transparent }

/-- `File.ResizeCanvas` (file.go lines 293–308): snapshot every layer's
pixel mapping, resize every layer, snapshot again, record one
`HistoryResize`, then adopt the new canvas size.  (In Go the snapshots alias
the live maps; since `Layer.Resize` never writes `PixelData`, at this point
the copies here are equal to what the aliases refer to.) -/
def File.ResizeCanvas (f : File) (width height : Int) (direction : ResizeDirection) : File :=
  let prevLayerDatas := f.Layers.map (fun l => l.PixelData)
  let layers := f.Layers.map (fun l => l.Resize width height direction f)
  let currentLayerDatas := layers.map (fun l => l.PixelData)
  let f1 := File.AppendHistory ({ f with Layers := layers })
      (.resize prevLayerDatas currentLayerDatas f.CanvasWidth f.CanvasHeight width height)
  { f1 with CanvasWidth := width, CanvasHeight := height }

/-- `File.MergeLayerDown` (file.go lines 613–653): blend every pixel of
layer `index` onto layer `index - 1` (recording a `HistoryPixel` with the
destination's previous colours), redraw, physically delete layer `index`
without separate recording, and append one `CompoundHistory`.  The Go
`range` loop over the source map touches each key independently, so it is
modelled pointwise. -/
def File.MergeLayerDown (f : File) (index : Nat) : GoResult File :=
  if f.Layers.length ≤ 2 then .err "Couldn't merge layer down: Not enough layers"
  else if index = 0 then .err "Couldn't merge layer down: Can't merge lowest layer"
  else
    match f.Layers.get? index, f.Layers.get? (index - 1) with
    | some fromL, some toL =>
        let ps : PSMap := fun p =>
          match fromL.PixelData p with
          | some c => some ⟨(toL.PixelData p).getD Color.Transparent,
                            BlendWithOpacity ((toL.PixelData p).getD Color.Transparent) c⟩
          | none => none
        let mergedPd : PixelMap := fun p =>
          match fromL.PixelData p with
          | some c => some (BlendWithOpacity ((toL.PixelData p).getD Color.Transparent) c)
          | none => toL.PixelData p
        let toL2 := Layer.Redraw ({ toL with PixelData := mergedPd })
        let f1 := { f with Layers := f.Layers.set (index - 1) toL2 }
        match f1.DeleteLayer index false with
        | .ok f2 => .ok (f2.AppendHistory (.compound [.pixel ps (index - 1), .layer .delete index]))
        | .err m => .err m
        | .panicked => .panicked
    | _, _ => .panicked

/-- `File.GetAnimation` (file.go lines 516–521): the source's range check is
`index-1 >= len(f.Animations)`; when it passes, `f.Animations[index]` is
read, which panics for `index = len` and for negative `index`. -/
def File.GetAnimation (f : File) (index : Int) : GoResult Animation :=
  if (f.Animations.length : Int) ≤ index - 1 then .err "Animation not in range"
  else
    if h : 0 ≤ index ∧ index < (f.Animations.length : Int) then
      .ok (f.Animations.get ⟨index.toNat, by omega⟩)
    else .panicked

/-- `File.DeleteAnimation` (file.go lines 490–500): same range check as
`GetAnimation`; when it passes, the slices `f.Animations[:index]` and
`f.Animations[index+1:]` are taken (a panic for `index = len` and for
negative `index`), and the current animation is set to the new last index. -/
def File.DeleteAnimation (f : File) (index : Int) : GoResult File :=
  if (f.Animations.length : Int) ≤ index - 1 then .err "Animation not in range"
  else
    if _h : 0 ≤ index ∧ index + 1 ≤ (f.Animations.length : Int) then
      let anims := f.Animations.take index.toNat ++ f.Animations.drop (index.toNat + 1)
      .ok { f with Animations := anims, CurrentAnimation := (anims.length : Int) - 1 }
    else .panicked

/-- The loop `for pos, psd := range typed.PixelState { layer.PixelData[pos] =
psd.Prev }` of `Undo` (file.go lines 867–869): every key of the history map
is written once with its `Prev`, independently of the others, so the loop is
its pointwise effect. -/
def psPrevMerge (ps : PSMap) (pd : PixelMap) : PixelMap := fun p =>
  match ps p with
  | some psd => some psd.Prev
  | none => pd p

/-- The analogous loop of `Redo` (file.go lines 919–921), writing `Current`. -/
def psCurrentMerge (ps : PSMap) (pd : PixelMap) : PixelMap := fun p =>
  match ps p with
  | some psd => some psd.Current
  | none => pd p

/-- The `HistoryPixel` case of `Undo`'s `process` closure (file.go lines
858–871): with an active selection, discard the floating selection (clear
the map and both flags) without committing it; then write every recorded
`Prev` back into the named layer and redraw it, preserving the caller's
current layer. -/
def undoPixelCase (f : File) (ps : PSMap) (li : Nat) : GoResult File :=
  let f1 := if f.DoingSelection then
      { f with Selection := PixelMap.empty, DoingSelection := false, SelectionMoving := false }
    else f
  let current := f1.CurrentLayer
  let f2 := f1.SetCurrentLayer li
  match f2.Layers.get? li with
  | some layer =>
      let layer2 := Layer.Redraw ({ layer with PixelData := psPrevMerge ps layer.PixelData })
      .ok { f2 with Layers := f2.Layers.set li layer2, CurrentLayer := current }
  | none => .panicked

/-- The `HistoryPixel` case of `Redo`'s `process` closure (file.go lines
915–923): write every recorded `Current` into the named layer and redraw. -/
def redoPixelCase (f : File) (ps : PSMap) (li : Nat) : GoResult File :=
  let current := f.CurrentLayer
  let f2 := f.SetCurrentLayer li
  match f2.Layers.get? li with
  | some layer =>
      let layer2 := Layer.Redraw ({ layer with PixelData := psCurrentMerge ps layer.PixelData })
      .ok { f2 with Layers := f2.Layers.set li layer2, CurrentLayer := current }
  | none => .panicked

/-- Undo and Redo discard the `error` results of the layer helpers they call
(file.go lines 875–881, 927–933); on an error return the receiver was not
mutated. -/
def ignoreErr (f : File) : GoResult File → GoResult File
  | .ok g => .ok g
  | .err _ => .ok f
  | .panicked => .panicked

/-- The `HistoryLayer` case of `Undo`'s `process` closure (file.go lines
872–882): apply the opposite layer operation, in "do not re-record" mode. -/
def undoLayerCase (f : File) (act : HistoryLayerAction) (li : Nat) : GoResult File :=
  match act with
  | .delete => ignoreErr f (f.RestoreLayer li)
  | .create => ignoreErr f (f.DeleteLayer li false)
  | .moveUp => ignoreErr f (f.MoveLayerUp li false)
  | .moveDown => ignoreErr f (f.MoveLayerDown li false)

/-- The `HistoryLayer` case of `Redo`'s `process` closure (file.go lines
924–934): re-apply the recorded layer operation. -/
def redoLayerCase (f : File) (act : HistoryLayerAction) (li : Nat) : GoResult File :=
  match act with
  | .delete => ignoreErr f (f.DeleteLayer li false)
  | .create => ignoreErr f (f.RestoreLayer li)
  | .moveUp => ignoreErr f (f.MoveLayerUp li false)
  | .moveDown => ignoreErr f (f.MoveLayerDown li false)

/-- The indexed `for i, layer := range`-loop shared by the `HistoryResize`
cases of Undo and Redo (file.go lines 888–891, 940–943): install each
snapshot as layer `i`'s pixel mapping and resize that layer's texture. -/
def resizeRestoreAux (f : File) (pds : List PixelMap) (w h : Int) (i : Nat) : GoResult File :=
  match pds with
  | [] => .ok f
  | pd :: rest =>
      match f.Layers.get? i with
      | some layer =>
          let layer2 := Layer.Resize ({ layer with PixelData := pd }) w h .tl f
          resizeRestoreAux ({ f with Layers := f.Layers.set i layer2 }) rest w h (i + 1)
      | none => .panicked

/-- The `HistoryResize` case of `Undo`'s `process` closure (file.go lines
883–891): restore the previous canvas size (also into the resize-preview
fields) and every layer's previous pixel snapshot. -/
def undoResizeCase (f : File) (prev : List PixelMap) (pw ph : Int) : GoResult File :=
  resizeRestoreAux
    ({ f with CanvasWidthResizePreview := pw, CanvasHeightResizePreview := ph,
              CanvasWidth := pw, CanvasHeight := ph }) prev pw ph 0

/-- The `HistoryResize` case of `Redo`'s `process` closure (file.go lines
935–943). -/
def redoResizeCase (f : File) (cur : List PixelMap) (cw ch : Int) : GoResult File :=
  resizeRestoreAux
    ({ f with CanvasWidthResizePreview := cw, CanvasHeightResizePreview := ch,
              CanvasWidth := cw, CanvasHeight := ch }) cur cw ch 0

mutual

/-- The `process` closure of `Undo` (file.go lines 851–893).  Note the
source iterates a `CompoundHistory`'s children in *forward* order here
(`for i := 0; i < len; i++`). -/
def processUndo (f : File) : HistoryAction → GoResult File
  | .compound as => processUndoList f as
  | .pixel ps li => undoPixelCase f ps li
  | .layer act li => undoLayerCase f act li
  | .resize prev _ pw ph _ _ => undoResizeCase f prev pw ph

/-- Forward iteration over a compound's children, as `Undo` does. -/
def processUndoList (f : File) : List HistoryAction → GoResult File
  | [] => .ok f
  | a :: as =>
      match processUndo f a with
      | .ok g => processUndoList g as
      | .err m => .err m
      | .panicked => .panicked

end

mutual

/-- The `process` closure of `Redo` (file.go lines 908–945).  Note the
source iterates a `CompoundHistory`'s children in *reverse* order here
(`for i := len-1; i >= 0; i--`). -/
def processRedo (f : File) : HistoryAction → GoResult File
  | .compound as => processRedoList f as
  | .pixel ps li => redoPixelCase f ps li
  | .layer act li => redoLayerCase f act li
  | .resize _ cur _ _ cw ch => redoResizeCase f cur cw ch

/-- Reverse iteration over a compound's children, as `Redo` does: the
recursive call handles the tail first, then the head is applied last —
equivalently, elements are processed from the last to the first. -/
def processRedoList (f : File) : List HistoryAction → GoResult File
  | [] => .ok f
  | a :: as =>
      match processRedoList f as with
      | .ok g => processRedo g a
      | .err m => .err m
      | .panicked => .panicked

end

/-- `File.Undo` (file.go lines 845–899): a no-op at the boundary; otherwise
advance the undo cursor and process the entry it now designates. -/
def File.Undo (f : File) : GoResult File :=
  if f.historyOffset < f.History.length then
    match f.History.get? (f.History.length - (f.historyOffset + 1)) with
    | some a => processUndo ({ f with historyOffset := f.historyOffset + 1 }) a
    | none => .panicked
  else .ok f

/-- `File.Redo` (file.go lines 902–951): a no-op at the boundary; otherwise
process the entry at the cursor and retreat the cursor. -/
def File.Redo (f : File) : GoResult File :=
  if 0 < f.historyOffset then
    match f.History.get? (f.History.length - f.historyOffset) with
    | some a => processRedo ({ f with historyOffset := f.historyOffset - 1 }) a
    | none => .panicked
  else .ok f

/-- One `DrawPixel` request: target coordinate and colour. -/
structure DrawCall where
  x : Int
  y : Int
  c : Color
deriving DecidableEq

/-- The coordinate a draw call touches. -/
def DrawCall.pos (d : DrawCall) : IntVec2 := ⟨d.x, d.y⟩

/-- Opening a pixel-edit gesture as the input layer does on mouse-down
(system_file.go lines 368–371): append a fresh empty `HistoryPixel` for the
current layer. -/
def File.openPixelEntry (f : File) : File :=
  f.AppendHistory (.pixel PSMap.empty f.CurrentLayer)

/-- Run a sequence of recorded `DrawPixel` calls. -/
def drawSeq : File → List DrawCall → GoResult File
  | f, [] => .ok f
  | f, d :: ds =>
      match f.DrawPixel d.x d.y d.c true with
      | .ok g => drawSeq g ds
      | .err m => .err m
      | .panicked => .panicked

/-- One complete pixel-edit gesture: open a history entry, then draw. -/
def applyEntry (f : File) (ds : List DrawCall) : GoResult File :=
  drawSeq f.openPixelEntry ds

/-- A sequence of pixel-edit gestures. -/
def applyEntries : File → List (List DrawCall) → GoResult File
  | f, [] => .ok f
  | f, ds :: rest =>
      match applyEntry f ds with
      | .ok g => applyEntries g rest
      | .err m => .err m
      | .panicked => .panicked

/-- `n` consecutive `Undo` calls. -/
def undoN : Nat → File → GoResult File
  | 0, f => .ok f
  | n + 1, f =>
      match f.Undo with
      | .ok g => undoN n g
      | .err m => .err m
      | .panicked => .panicked

/-- `n` consecutive `Redo` calls. -/
def redoN : Nat → File → GoResult File
  | 0, f => .ok f
  | n + 1, f =>
      match f.Redo with
      | .ok g => redoN n g
      | .err m => .err m
      | .panicked => .panicked

/-- A sequence of `AppendHistory` calls. -/
def appendAll (f : File) (as : List HistoryAction) : File := as.foldl File.AppendHistory f

/-- The spec's stated reading of Compound undo (spec §3 and §4.3: Compound
"applies children's inverses in *reverse* order" on undo), written as a
definition to compare against what `processUndo` actually does. -/
def undoChildrenReversed (f : File) (as : List HistoryAction) : GoResult File :=
  processUndoList f as.reverse

/-- Whether a Go call returned normally. -/
def GoResult.isOk {α : Type} : GoResult α → Bool
  | .ok _ => true
  | .err _ => false
  | .panicked => false

/-- A recorded pixel-delta map is *accurate* for a gesture that took the
current layer's colour view from `prevC` to `nextC`: coordinates without a
delta kept their colour, and a recorded delta holds exactly the colour
before the gesture and the colour after it. -/
def PSAccurate (ps : PSMap) (prevC nextC : IntVec2 → Color) : Prop :=
  ∀ p, (ps p = none → nextC p = prevC p) ∧
       (∀ psd, ps p = some psd → psd.Prev = prevC p ∧ psd.Current = nextC p)

/-- A run of pixel-edit history entries on layer `L`, each accurately linking
consecutive colour views of that layer. -/
inductive AccurateChain (L : Nat) : (IntVec2 → Color) → List HistoryAction → (IntVec2 → Color) → Prop where
  | nil (c : IntVec2 → Color) : AccurateChain L c [] c
  | cons {c c2 c3 : IntVec2 → Color} {ps : PSMap} {es : List HistoryAction} :
      PSAccurate ps c c2 → AccurateChain L c2 es c3 →
      AccurateChain L c (HistoryAction.pixel ps L :: es) c3

/-- A fresh, fully transparent layer (what `NewLayer` produces once its
uninitialized texture has been cleared). -/
def blankLayer : Layer :=
  { Hidden := false, Canvas := fun _ => Color.Transparent, hasInitialFill := true,
    InitialFillColor := Color.Transparent, Name := "background", PixelData := PixelMap.empty }

/-- A small concrete document mirroring `NewFile(4, 4, …)`: a 4×4 canvas, a
blank background layer plus the reserved preview layer, empty history. -/
def baseFile : File :=
  { Layers := [blankLayer, { blankLayer with Name := "hidden" }]
    CurrentLayer := 0
    Animations := []
    CurrentAnimation := 0
    History := []
    HistoryMaxActions := 500
    historyOffset := 0
    deletedLayers := []
    DoingSelection := false
    Selection := PixelMap.empty
    SelectionMoving := false
    CanvasWidth := 4
    CanvasHeight := 4
    CanvasWidthResizePreview := 4
    CanvasHeightResizePreview := 4
    CanvasDirectionResizePreview := .tl }

/-- A delta map recording a single coordinate. -/
def psSingle (p : IntVec2) (prev cur : Color) : PSMap := PSMap.empty.insert p ⟨prev, cur⟩

/-- First child of the concrete compound entry used to exhibit the order in
which Undo processes compound children. -/
def c4EntryA : HistoryAction := .pixel (psSingle ⟨0, 0⟩ Color.Red Color.Black) 0

/-- Second child of that compound entry; it touches the same coordinate with
a different `Prev`, so the processing order is observable. -/
def c4EntryB : HistoryAction := .pixel (psSingle ⟨0, 0⟩ Color.Blue Color.Black) 0

/-- A document whose single history entry is the compound `[A, B]`. -/
def c4File : File := { baseFile with History := [.compound [c4EntryA, c4EntryB]] }

/-- The single-gesture draw list of the spec's 4×4 scenario: `(1,1) = Red`
then `(1,1) = Blue`, both opaque. -/
def c2Draws : List DrawCall := [⟨1, 1, Color.Red⟩, ⟨1, 1, Color.Blue⟩]

/-- The same scenario packaged as one pixel-edit gesture of a sequence. -/
def c1Edits : List (List DrawCall) := [c2Draws]

/-- A document with a bounded history of two entries for exercising
`AppendHistory` eviction. -/
def c6File : File := { baseFile with HistoryMaxActions := 2 }

/-- A layer-operation history entry used as an opaque payload for the
history-log theorems. -/
def dummyEntry : HistoryAction := .layer .moveUp 0

/-- A second distinguishable payload entry. -/
def dummyEntry2 : HistoryAction := .layer .moveDown 1

/-- A third distinguishable payload entry. -/
def dummyEntry3 : HistoryAction := .layer .create 0

/-- A document that has two history entries and has undone one of them. -/
def c7File : File :=
  { baseFile with History := [dummyEntry, dummyEntry2], historyOffset := 1 }

/-- A document in the middle of moving a selection, whose latest history
entry is a pixel entry: the setting of the claim about Undo discarding an
active selection. -/
def c10File : File :=
  { baseFile with
      DoingSelection := true
      SelectionMoving := true
      Selection := PixelMap.empty.insert ⟨0, 0⟩ Color.Red
      History := [.pixel (psSingle ⟨1, 1⟩ Color.Transparent Color.Red) 0] }

/-! ### Generic list facts -/

/-- Reading a concatenation at the length of its left part yields the head
of the right part. -/
theorem list_get?_append_cons {α : Type} (pre : List α) (a : α) (post : List α) :
    (pre ++ a :: post).get? pre.length = some a := by
  induction pre with
  | nil => rfl
  | cons b pre ih => simpa using ih

/-- Reading `set` at the written index. -/
theorem list_get?_set_self {α : Type} (l : List α) (i : Nat) (a : α) (h : i < l.length) :
    (l.set i a).get? i = some a := by
  induction l generalizing i with
  | nil => simp at h
  | cons b l ih =>
      cases i with
      | zero => rfl
      | succ n => simpa using ih n (by simpa using h)

/-- Reading `set` away from the written index. -/
theorem list_get?_set_ne {α : Type} (l : List α) (i j : Nat) (a : α) (h : i ≠ j) :
    (l.set i a).get? j = l.get? j := by
  induction l generalizing i j with
  | nil => simp
  | cons b l ih =>
      cases i with
      | zero =>
          cases j with
          | zero => exact absurd rfl h
          | succ m => rfl
      | succ n =>
          cases j with
          | zero => rfl
          | succ m => simpa using ih n m (by omega)

/-! ### Frame and characterization lemmas for the primitive operations -/

/-- `AppendHistory` leaves the layer stack alone. -/
theorem AppendHistory_Layers (f : File) (a : HistoryAction) :
    (f.AppendHistory a).Layers = f.Layers := rfl

/-- `AppendHistory` leaves the current-layer index alone. -/
theorem AppendHistory_CurrentLayer (f : File) (a : HistoryAction) :
    (f.AppendHistory a).CurrentLayer = f.CurrentLayer := rfl

/-- `AppendHistory` leaves the capacity alone. -/
theorem AppendHistory_max (f : File) (a : HistoryAction) :
    (f.AppendHistory a).HistoryMaxActions = f.HistoryMaxActions := rfl

/-- `AppendHistory` resets the undo cursor. -/
theorem AppendHistory_historyOffset (f : File) (a : HistoryAction) :
    (f.AppendHistory a).historyOffset = 0 := rfl

/-- `AppendHistory` changes no layer colour. -/
theorem AppendHistory_layerColor (f : File) (a : HistoryAction) (i : Nat) (p : IntVec2) :
    layerColor (f.AppendHistory a) i p = layerColor f i p := rfl

/-- Exact description of the history list after `AppendHistory`: the
truncated history keeps its tail, losing its single oldest entry exactly
when it is at capacity, and the new action lands at the end. -/
theorem AppendHistory_History (f : File) (a : HistoryAction)
    (hlen : f.History.length - f.historyOffset ≤ f.HistoryMaxActions) :
    (f.AppendHistory a).History
      = (f.History.take (f.History.length - f.historyOffset)).drop
          (f.History.length - f.historyOffset + 1 - f.HistoryMaxActions) ++ [a] := by
  have hTlen : (f.History.take (f.History.length - f.historyOffset)).length
      = f.History.length - f.historyOffset := by
    simp [List.length_take]
  show (if f.HistoryMaxActions ≤ (f.History.take (f.History.length - f.historyOffset)).length then
          goSlice (f.History.take (f.History.length - f.historyOffset))
            ((f.History.take (f.History.length - f.historyOffset)).length - f.HistoryMaxActions + 1)
            f.HistoryMaxActions
        else
          f.History.take (f.History.length - f.historyOffset)) ++ [a] = _
  by_cases hc : f.HistoryMaxActions ≤ (f.History.take (f.History.length - f.historyOffset)).length
  · rw [if_pos hc]
    unfold goSlice
    have h1 : (f.History.take (f.History.length - f.historyOffset)).length
        - f.HistoryMaxActions + 1 = 1 := by omega
    have h2 : f.History.length - f.historyOffset + 1 - f.HistoryMaxActions = 1 := by omega
    rw [h1, h2]
    congr 1
    apply List.take_of_length_le
    simp [List.length_drop]
    omega
  · rw [if_neg hc]
    have h2 : f.History.length - f.historyOffset + 1 - f.HistoryMaxActions = 0 := by omega
    rw [h2, List.drop_zero]

/-- `AppendHistory` keeps the history within its capacity. -/
theorem AppendHistory_length_le (f : File) (a : HistoryAction)
    (hmax : 1 ≤ f.HistoryMaxActions)
    (hlen : f.History.length - f.historyOffset ≤ f.HistoryMaxActions) :
    (f.AppendHistory a).History.length ≤ f.HistoryMaxActions := by
  rw [AppendHistory_History f a hlen]
  simp [List.length_drop, List.length_take]
  omega

/-- Writing a pixel does not touch the history log. -/
theorem writeCurrentPixel_History (f : File) (x y : Int) (c : Color) :
    (f.writeCurrentPixel x y c).History = f.History := by
  unfold File.writeCurrentPixel
  cases f.Layers.get? f.CurrentLayer <;> rfl

/-- Writing a pixel does not change the current-layer index. -/
theorem writeCurrentPixel_CurrentLayer (f : File) (x y : Int) (c : Color) :
    (f.writeCurrentPixel x y c).CurrentLayer = f.CurrentLayer := by
  unfold File.writeCurrentPixel
  cases f.Layers.get? f.CurrentLayer <;> rfl

/-- Writing a pixel does not move the undo cursor. -/
theorem writeCurrentPixel_historyOffset (f : File) (x y : Int) (c : Color) :
    (f.writeCurrentPixel x y c).historyOffset = f.historyOffset := by
  unfold File.writeCurrentPixel
  cases f.Layers.get? f.CurrentLayer <;> rfl

/-- Writing a pixel does not change the history capacity. -/
theorem writeCurrentPixel_max (f : File) (x y : Int) (c : Color) :
    (f.writeCurrentPixel x y c).HistoryMaxActions = f.HistoryMaxActions := by
  unfold File.writeCurrentPixel
  cases f.Layers.get? f.CurrentLayer <;> rfl

/-- Writing a pixel preserves the number of layers. -/
theorem writeCurrentPixel_length (f : File) (x y : Int) (c : Color) :
    (f.writeCurrentPixel x y c).Layers.length = f.Layers.length := by
  unfold File.writeCurrentPixel
  cases f.Layers.get? f.CurrentLayer <;> simp

/-- The colour view of the current layer after a pixel write. -/
theorem writeCurrentPixel_layerColor_self (f : File) (x y : Int) (c : Color)
    (hcl : f.CurrentLayer < f.Layers.length) (p : IntVec2) :
    layerColor (f.writeCurrentPixel x y c) f.CurrentLayer p
      = if p = (⟨x, y⟩ : IntVec2) then c else layerColor f f.CurrentLayer p := by
  unfold File.writeCurrentPixel
  cases hL : f.Layers.get? f.CurrentLayer with
  | none =>
      exfalso
      rw [List.get?_eq_getElem?, List.getElem?_eq_none_iff] at hL
      omega
  | some l =>
      simp only [layerColor, list_get?_set_self _ _ _ hcl, hL, PixelMap.insert]
      by_cases hp : p = (⟨x, y⟩ : IntVec2) <;> simp [hp]

/-- A pixel write leaves every other layer's colour view alone. -/
theorem writeCurrentPixel_layerColor_other (f : File) (x y : Int) (c : Color) (i : Nat)
    (hi : i ≠ f.CurrentLayer) (p : IntVec2) :
    layerColor (f.writeCurrentPixel x y c) i p = layerColor f i p := by
  unfold File.writeCurrentPixel
  cases hL : f.Layers.get? f.CurrentLayer with
  | none => rfl
  | some l =>
      simp only [layerColor, list_get?_set_ne _ _ _ _ (fun he => hi he.symm)]

/-- Branch-level evaluation of `DrawPixel` with `saveToHistory = true`,
stated through `drawOldColor`/`drawBlended`. -/
theorem DrawPixel_eval (f : File) (x y : Int) (c : Color)
    (hcl : f.CurrentLayer < f.Layers.length) :
    f.DrawPixel x y c true =
      if inCanvas f x y then
        if drawOldColor f x y = drawBlended f x y c then
          .ok (f.writeCurrentPixel x y (drawBlended f x y c))
        else
          match f.History.getLast? with
          | none => .panicked
          | some (.pixel ps li) =>
              .ok (File.writeCurrentPixel
                ({ f with History := f.History.dropLast
                    ++ [.pixel (ps.insert ⟨x, y⟩ ⟨drawOldColor f x y, drawBlended f x y c⟩) li] })
                x y (drawBlended f x y c))
          | some _ => .ok (f.writeCurrentPixel x y (drawBlended f x y c))
      else .ok f := by
  unfold File.DrawPixel
  cases hL : f.Layers.get? f.CurrentLayer with
  | none =>
      exfalso
      rw [List.get?_eq_getElem?, List.getElem?_eq_none_iff] at hL
      omega
  | some l =>
      have hL' : f.Layers[f.CurrentLayer]? = some l := by
        rw [← List.get?_eq_getElem?]; exact hL
      have hold : drawOldColor f x y = (l.PixelData ⟨x, y⟩).getD Color.Transparent := by
        simp [drawOldColor, layerColor, hL']
      have hbl : drawBlended f x y c
          = (if c = Color.Transparent then c
             else BlendWithOpacity ((l.PixelData ⟨x, y⟩).getD Color.Transparent) c) := by
        simp [drawBlended, hold]
      rw [hold, hbl]
      rfl

/-- Reading a map right where it was just written. -/
theorem PSMap_insert_self (m : PSMap) (k : IntVec2) (v : PixelStateData) :
    m.insert k v k = some v := if_pos rfl

/-- Reading a map away from where it was just written. -/
theorem PSMap_insert_ne (m : PSMap) (k : IntVec2) (v : PixelStateData) (q : IntVec2)
    (h : q ≠ k) : m.insert k v q = m q := if_neg h

/-- Reading a pixel map right where it was just written. -/
theorem PixelMap_insert_self (m : PixelMap) (k : IntVec2) (v : Color) :
    m.insert k v k = some v := if_pos rfl

/-- Reading a pixel map away from where it was just written. -/
theorem PixelMap_insert_ne (m : PixelMap) (k : IntVec2) (v : Color) (q : IntVec2)
    (h : q ≠ k) : m.insert k v q = m q := if_neg h

/-- One recorded `DrawPixel` call on a document whose last history entry is a
pixel entry: it succeeds, the history keeps its shape with only that last
delta map possibly changed, no other coordinate or layer is disturbed, and at
the target coordinate either nothing is recorded and the colour is unchanged,
or the delta becomes exactly `{Prev: colour before this call, Current: colour
after it}` — the call *overwrites* any earlier `Prev` there. -/
theorem drawPixel_record (f : File) (d : DrawCall) (B : List HistoryAction) (ps : PSMap) (li : Nat)
    (hcl : f.CurrentLayer < f.Layers.length)
    (hh : f.History = B ++ [.pixel ps li]) :
    ∃ g ps2, f.DrawPixel d.x d.y d.c true = .ok g ∧
      g.History = B ++ [.pixel ps2 li] ∧
      g.CurrentLayer = f.CurrentLayer ∧
      g.Layers.length = f.Layers.length ∧
      g.historyOffset = f.historyOffset ∧
      g.HistoryMaxActions = f.HistoryMaxActions ∧
      (∀ q, q ≠ d.pos → ps2 q = ps q) ∧
      (∀ q, q ≠ d.pos → layerColor g f.CurrentLayer q = layerColor f f.CurrentLayer q) ∧
      (∀ i, i ≠ f.CurrentLayer → ∀ q, layerColor g i q = layerColor f i q) ∧
      ((ps2 d.pos = ps d.pos ∧ layerColor g f.CurrentLayer d.pos = layerColor f f.CurrentLayer d.pos)
        ∨ ps2 d.pos = some ⟨layerColor f f.CurrentLayer d.pos, layerColor g f.CurrentLayer d.pos⟩) := by
  have hpos : d.pos = (⟨d.x, d.y⟩ : IntVec2) := rfl
  rw [DrawPixel_eval f d.x d.y d.c hcl]
  by_cases hin : inCanvas f d.x d.y
  · rw [if_pos hin]
    by_cases hsame : drawOldColor f d.x d.y = drawBlended f d.x d.y d.c
    · rw [if_pos hsame]
      have hccl : layerColor f f.CurrentLayer d.pos = drawBlended f d.x d.y d.c := by
        rw [← hsame]; rfl
      refine ⟨_, ps, rfl, ?_, writeCurrentPixel_CurrentLayer f d.x d.y _,
        writeCurrentPixel_length f d.x d.y _, writeCurrentPixel_historyOffset f d.x d.y _,
        writeCurrentPixel_max f d.x d.y _, fun _ _ => rfl, ?_, ?_, ?_⟩
      · rw [writeCurrentPixel_History]; exact hh
      · intro q hq
        have hq2 : q ≠ (⟨d.x, d.y⟩ : IntVec2) := hpos ▸ hq
        rw [writeCurrentPixel_layerColor_self f d.x d.y _ hcl q, if_neg hq2]
      · intro i hi q
        exact writeCurrentPixel_layerColor_other f d.x d.y _ i hi q
      · refine Or.inl ⟨rfl, ?_⟩
        rw [writeCurrentPixel_layerColor_self f d.x d.y _ hcl d.pos, if_pos hpos, ← hccl]
    · rw [if_neg hsame]
      have hlast : f.History.getLast? = some (HistoryAction.pixel ps li) := by
        rw [hh]; exact List.getLast?_concat _
      rw [hlast]
      have hdrop : f.History.dropLast = B := by rw [hh]; simp
      rw [hdrop]
      set f2 : File := { f with History := B ++ [HistoryAction.pixel
          (ps.insert ⟨d.x, d.y⟩ ⟨drawOldColor f d.x d.y, drawBlended f d.x d.y d.c⟩) li] }
        with hf2
      have hcl2 : f2.CurrentLayer < f2.Layers.length := hcl
      have hlc2 : ∀ i q, layerColor f2 i q = layerColor f i q := fun i q => rfl
      refine ⟨_, ps.insert ⟨d.x, d.y⟩ ⟨drawOldColor f d.x d.y, drawBlended f d.x d.y d.c⟩,
        rfl, ?_, ?_, ?_, ?_, ?_, ?_, ?_, ?_, ?_⟩
      · rw [writeCurrentPixel_History]
      · rw [writeCurrentPixel_CurrentLayer]
      · rw [writeCurrentPixel_length]
      · rw [writeCurrentPixel_historyOffset]
      · rw [writeCurrentPixel_max]
      · intro q hq
        have hq2 : q ≠ (⟨d.x, d.y⟩ : IntVec2) := hpos ▸ hq
        exact PSMap_insert_ne _ _ _ _ hq2
      · intro q hq
        have hq2 : q ≠ (⟨d.x, d.y⟩ : IntVec2) := hpos ▸ hq
        rw [writeCurrentPixel_layerColor_self f2 d.x d.y _ hcl2 q, if_neg hq2, hlc2]
      · intro i hi q
        exact writeCurrentPixel_layerColor_other f2 d.x d.y _ i hi q
      · refine Or.inr ?_
        have h1 : layerColor (f2.writeCurrentPixel d.x d.y (drawBlended f d.x d.y d.c))
            f.CurrentLayer d.pos = drawBlended f d.x d.y d.c := by
          rw [writeCurrentPixel_layerColor_self f2 d.x d.y _ hcl2 d.pos, if_pos hpos]
        rw [h1]
        exact PSMap_insert_self ps _ _
  · rw [if_neg hin]
    exact ⟨f, ps, rfl, hh, rfl, rfl, rfl, rfl, fun _ _ => rfl, fun _ _ => rfl,
      fun _ _ _ => rfl, Or.inl ⟨rfl, rfl⟩⟩

/-- Accuracy only reads the colour views pointwise. -/
theorem psAccurate_congr {ps : PSMap} {c c2 cs cs2 : IntVec2 → Color}
    (h : PSAccurate ps c c2) (h1 : ∀ p, c p = cs p) (h2 : ∀ p, c2 p = cs2 p) :
    PSAccurate ps cs cs2 := by
  intro p
  constructor
  · intro hn
    rw [← h1, ← h2]
    exact (h p).1 hn
  · intro psd hs
    obtain ⟨ha, hb⟩ := (h p).2 psd hs
    exact ⟨by rw [← h1]; exact ha, by rw [← h2]; exact hb⟩

/-- Folding recorded draw calls with pairwise-distinct, not-yet-recorded
coordinates over a document whose last history entry is a pixel entry for
the current layer: the calls succeed and that entry stays accurate for the
whole gesture. -/
theorem drawSeq_accurate (ds : List DrawCall) :
    ∀ (f : File) (B : List HistoryAction) (ps : PSMap) (cb : IntVec2 → Color),
    f.CurrentLayer < f.Layers.length →
    f.History = B ++ [.pixel ps f.CurrentLayer] →
    PSAccurate ps cb (fun p => layerColor f f.CurrentLayer p) →
    (∀ d ∈ ds, ps d.pos = none) →
    (ds.map DrawCall.pos).Nodup →
    ∃ g ps2, drawSeq f ds = .ok g ∧
      g.History = B ++ [.pixel ps2 f.CurrentLayer] ∧
      g.CurrentLayer = f.CurrentLayer ∧
      g.Layers.length = f.Layers.length ∧
      g.historyOffset = f.historyOffset ∧
      g.HistoryMaxActions = f.HistoryMaxActions ∧
      PSAccurate ps2 cb (fun p => layerColor g f.CurrentLayer p) ∧
      (∀ i, i ≠ f.CurrentLayer → ∀ q, layerColor g i q = layerColor f i q) := by
  induction ds with
  | nil =>
      intro f B ps cb _ hh hacc _ _
      exact ⟨f, ps, rfl, hh, rfl, rfl, rfl, rfl, hacc, fun _ _ _ => rfl⟩
  | cons d ds ih =>
      intro f B ps cb hcl hh hacc hfresh hnd
      obtain ⟨g, ps2, hrun, hh2, hCL, hlen, hoff, hmaxx, hps_ne, hcol_ne, hother, hat⟩ :=
        drawPixel_record f d B ps f.CurrentLayer hcl hh
      have hfreshd : ps d.pos = none := hfresh d (by simp)
      have hacc2 : PSAccurate ps2 cb (fun p => layerColor g f.CurrentLayer p) := by
        intro q
        constructor
        · intro hnone
          show layerColor g f.CurrentLayer q = cb q
          by_cases hq : q = d.pos
          · subst hq
            rcases hat with ⟨hps, hcolor⟩ | hps
            · rw [hcolor]
              rw [hps] at hnone
              exact (hacc d.pos).1 hnone
            · rw [hps] at hnone
              exact Option.noConfusion hnone
          · rw [hcol_ne q hq]
            rw [hps_ne q hq] at hnone
            exact (hacc q).1 hnone
        · intro psd hs
          show psd.Prev = cb q ∧ psd.Current = layerColor g f.CurrentLayer q
          by_cases hq : q = d.pos
          · subst hq
            rcases hat with ⟨hps, hcolor⟩ | hps
            · rw [hps] at hs
              obtain ⟨ha, hb⟩ := (hacc d.pos).2 psd hs
              exact ⟨ha, by rw [hcolor]; exact hb⟩
            · rw [hps] at hs
              cases Option.some.inj hs
              exact ⟨(hacc d.pos).1 hfreshd, rfl⟩
          · rw [hps_ne q hq] at hs
            obtain ⟨ha, hb⟩ := (hacc q).2 psd hs
            exact ⟨ha, by rw [hcol_ne q hq]; exact hb⟩
      have hcl' : g.CurrentLayer < g.Layers.length := by rw [hCL, hlen]; exact hcl
      have hh' : g.History = B ++ [.pixel ps2 g.CurrentLayer] := by rw [hCL]; exact hh2
      have hacc' : PSAccurate ps2 cb (fun p => layerColor g g.CurrentLayer p) :=
        psAccurate_congr hacc2 (fun _ => rfl) (fun p => by rw [hCL])
      have hfresh' : ∀ d2 ∈ ds, ps2 d2.pos = none := by
        intro d2 hd2
        have hne : d2.pos ≠ d.pos := by
          intro he
          have : d.pos ∈ ds.map DrawCall.pos := by
            rw [← he]
            exact List.mem_map_of_mem _ hd2
          simp at hnd
          exact hnd.1 d2 hd2 he
        rw [hps_ne d2.pos hne]
        exact hfresh d2 (by simp [hd2])
      have hnd' : (ds.map DrawCall.pos).Nodup := by
        simp at hnd
        exact hnd.2
      obtain ⟨g2, ps3, hrun2, hh3, hCL2, hlen2, hoff2, hmax2, hacc3, hother2⟩ :=
        ih g B ps2 cb hcl' hh' hacc' hfresh' hnd'
      refine ⟨g2, ps3, ?_, ?_, ?_, ?_, ?_, ?_, ?_, ?_⟩
      · show drawSeq f (d :: ds) = .ok g2
        simp only [drawSeq, hrun]
        exact hrun2
      · rw [hh3, hCL]
      · rw [hCL2, hCL]
      · rw [hlen2, hlen]
      · rw [hoff2, hoff]
      · rw [hmax2, hmaxx]
      · refine psAccurate_congr hacc3 (fun _ => rfl) (fun p => by rw [hCL])
      · intro i hi q
        have hi' : i ≠ g.CurrentLayer := by rw [hCL]; exact hi
        rw [hother2 i hi' q]
        exact hother i hi q

/-- One complete pixel-edit gesture with pairwise-distinct coordinates:
opening the entry truncates and possibly evicts, the draws succeed, and the
document ends with an accurate pixel entry appended and the undo cursor at
zero. -/
theorem applyEntry_accurate (f : File) (ds : List DrawCall)
    (hcl : f.CurrentLayer < f.Layers.length)
    (hlenoff : f.History.length - f.historyOffset ≤ f.HistoryMaxActions)
    (hnd : (ds.map DrawCall.pos).Nodup) :
    ∃ g ps, applyEntry f ds = .ok g ∧
      g.History = (f.History.take (f.History.length - f.historyOffset)).drop
          (f.History.length - f.historyOffset + 1 - f.HistoryMaxActions)
        ++ [.pixel ps f.CurrentLayer] ∧
      g.CurrentLayer = f.CurrentLayer ∧
      g.Layers.length = f.Layers.length ∧
      g.historyOffset = 0 ∧
      g.HistoryMaxActions = f.HistoryMaxActions ∧
      PSAccurate ps (fun p => layerColor f f.CurrentLayer p)
        (fun p => layerColor g f.CurrentLayer p) ∧
      (∀ i, i ≠ f.CurrentLayer → ∀ q, layerColor g i q = layerColor f i q) := by
  have hopen : (f.openPixelEntry).History
      = ((f.History.take (f.History.length - f.historyOffset)).drop
          (f.History.length - f.historyOffset + 1 - f.HistoryMaxActions))
        ++ [.pixel PSMap.empty f.openPixelEntry.CurrentLayer] :=
    AppendHistory_History f _ hlenoff
  have haccE : PSAccurate PSMap.empty (fun p => layerColor f f.CurrentLayer p)
      (fun p => layerColor f.openPixelEntry f.openPixelEntry.CurrentLayer p) := by
    intro p
    exact ⟨fun _ => rfl, fun psd hs => Option.noConfusion hs⟩
  obtain ⟨g, ps2, hrun, hh2, hCL, hlenL, hoff, hmax2, hacc, hother⟩ :=
    drawSeq_accurate ds f.openPixelEntry _ PSMap.empty
      (fun p => layerColor f f.CurrentLayer p) hcl hopen haccE (fun _ _ => rfl) hnd
  exact ⟨g, ps2, hrun, hh2, hCL, hlenL, hoff, hmax2, hacc, hother⟩


/-- The whole forward phase: a nonempty sequence of pixel-edit gestures,
each with pairwise-distinct coordinates, run on a document satisfying the
reachable-state invariants with enough history capacity for all of them.
All gestures succeed; the resulting history is the truncated old history
(evicted from the front as capacity demands — never into the new entries)
followed by the full run of accurate entries, with the undo cursor at
zero. -/
theorem applyEntries_accurate (es : List (List DrawCall)) :
    ∀ (f : File),
    es ≠ [] →
    f.CurrentLayer < f.Layers.length →
    1 ≤ f.HistoryMaxActions →
    f.historyOffset ≤ f.History.length →
    f.History.length ≤ f.HistoryMaxActions →
    es.length ≤ f.HistoryMaxActions →
    (∀ ds ∈ es, (ds.map DrawCall.pos).Nodup) →
    ∃ g E cN, applyEntries f es = .ok g ∧
      g.History = (f.History.take (f.History.length - f.historyOffset)).drop
          (f.History.length - f.historyOffset + es.length - f.HistoryMaxActions) ++ E ∧
      E.length = es.length ∧
      AccurateChain f.CurrentLayer (fun p => layerColor f f.CurrentLayer p) E cN ∧
      (∀ p, layerColor g f.CurrentLayer p = cN p) ∧
      (∀ i, i ≠ f.CurrentLayer → ∀ q, layerColor g i q = layerColor f i q) ∧
      g.CurrentLayer = f.CurrentLayer ∧
      g.Layers.length = f.Layers.length ∧
      g.HistoryMaxActions = f.HistoryMaxActions ∧
      g.historyOffset = 0 := by
  induction es with
  | nil => intro f hne; exact absurd rfl hne
  | cons ds es' ih =>
      intro f _ hcl hmax hoff hlen hN hnd
      have hT : (f.History.take (f.History.length - f.historyOffset)).length
          = f.History.length - f.historyOffset := by
        simp [List.length_take]
      obtain ⟨g1, ps1, hrun1, hh1, hCL1, hlen1, hoff1, hmax1, hacc1, hother1⟩ :=
        applyEntry_accurate f ds hcl (by omega) (hnd ds (by simp))
      by_cases hes' : es' = []
      · subst hes'
        refine ⟨g1, [.pixel ps1 f.CurrentLayer],
          (fun p => layerColor g1 f.CurrentLayer p), ?_, ?_, rfl, ?_, fun p => rfl, hother1,
          hCL1, hlen1, hmax1, hoff1⟩
        · show applyEntries f [ds] = .ok g1
          simp only [applyEntries, hrun1]
        · simpa using hh1
        · exact AccurateChain.cons hacc1 (AccurateChain.nil _)
      · have hcl1 : g1.CurrentLayer < g1.Layers.length := by rw [hCL1, hlen1]; exact hcl
        have hg1len : g1.History.length
            = (f.History.length - f.historyOffset)
              - (f.History.length - f.historyOffset + 1 - f.HistoryMaxActions) + 1 := by
          rw [hh1]
          simp [List.length_drop, hT]
        have hN' : es'.length + 1 ≤ f.HistoryMaxActions := by simp at hN; omega
        obtain ⟨g, E', cN, hrun2, hh2, hElen, hchain, hfinal, hother2, hCL2, hlen2, hmax2, hoff2⟩ :=
          ih g1 hes' hcl1 (by omega) (by omega) (by omega) (by omega)
            (fun ds2 hds2 => hnd ds2 (by simp [hds2]))
        rw [hCL1] at hchain hfinal hCL2 hother2
        rw [hoff1, Nat.sub_zero, hmax1] at hh2
        rw [hh1] at hh2
        rw [List.take_length] at hh2
        -- hh2 : g.History = ((T.drop d1 ++ [e]).drop ((T.drop d1 ++ [e]).length + |es'| - max)) ++ E'
        rw [List.drop_append_eq_append_drop] at hh2
        have hAlen : ((f.History.take (f.History.length - f.historyOffset)).drop
            (f.History.length - f.historyOffset + 1 - f.HistoryMaxActions)).length
            = (f.History.length - f.historyOffset)
              - (f.History.length - f.historyOffset + 1 - f.HistoryMaxActions) := by
          simp [List.length_drop, hT]
        have htot : ((f.History.take (f.History.length - f.historyOffset)).drop
              (f.History.length - f.historyOffset + 1 - f.HistoryMaxActions)
            ++ [HistoryAction.pixel ps1 f.CurrentLayer]).length
            = (f.History.length - f.historyOffset)
              - (f.History.length - f.historyOffset + 1 - f.HistoryMaxActions) + 1 := by
          simp [List.length_append, hAlen]
        rw [htot] at hh2
        have hone : ((f.History.length - f.historyOffset)
              - (f.History.length - f.historyOffset + 1 - f.HistoryMaxActions) + 1
              + es'.length - f.HistoryMaxActions)
            - ((f.History.take (f.History.length - f.historyOffset)).drop
                (f.History.length - f.historyOffset + 1 - f.HistoryMaxActions)).length = 0 := by
          rw [hAlen]; omega
        rw [hone, List.drop_zero] at hh2
        rw [List.drop_drop] at hh2
        refine ⟨g, .pixel ps1 f.CurrentLayer :: E', cN, ?_, ?_, by simp [hElen], ?_, hfinal, ?_,
          hCL2, by rw [hlen2, hlen1], by rw [hmax2, hmax1], hoff2⟩
        · show applyEntries f (ds :: es') = .ok g
          simp only [applyEntries, hrun1]
          exact hrun2
        · rw [hh2, List.append_assoc, List.singleton_append]
          congr 2
          simp only [List.length_cons]
          omega
        · exact AccurateChain.cons hacc1 hchain
        · intro i hi q
          rw [hother2 i hi q]
          exact hother1 i hi q

/-- Reading a layer colour through a known `get?` result. -/
theorem layerColor_eq_of_get {f : File} {i : Nat} {l : Layer} (h : f.Layers.get? i = some l)
    (p : IntVec2) : layerColor f i p = (l.PixelData p).getD Color.Transparent := by
  unfold layerColor
  rw [h]

/-- An accurate chain decomposes at its last entry. -/
theorem accurateChain_append_one {L : Nat} {c0 cN : IntVec2 → Color} {E : List HistoryAction}
    {e : HistoryAction} (h : AccurateChain L c0 (E ++ [e]) cN) :
    ∃ cMid ps, AccurateChain L c0 E cMid ∧ e = .pixel ps L ∧ PSAccurate ps cMid cN := by
  induction E generalizing c0 with
  | nil =>
      cases h with
      | cons hacc hrest =>
          cases hrest
          exact ⟨c0, _, AccurateChain.nil c0, rfl, hacc⟩
  | cons a E ih =>
      cases h with
      | cons hacc hrest =>
          obtain ⟨cMid, ps, hch, he, hlast⟩ := ih hrest
          exact ⟨cMid, ps, AccurateChain.cons hacc hch, he, hlast⟩

/-- `undoPixelCase` written as one record update: the selection is discarded
(when one was active) and every recorded `Prev` is written back. -/
theorem undoPixelCase_eq (f : File) (ps : PSMap) (li : Nat) :
    undoPixelCase f ps li = (match f.Layers.get? li with
      | some layer => GoResult.ok { f with
          Layers := f.Layers.set li
            (Layer.Redraw ({ layer with PixelData := psPrevMerge ps layer.PixelData })),
          Selection := if f.DoingSelection then PixelMap.empty else f.Selection,
          DoingSelection := false,
          SelectionMoving := if f.DoingSelection then false else f.SelectionMoving }
      | none => GoResult.panicked) := by
  unfold undoPixelCase File.SetCurrentLayer
  by_cases hds : f.DoingSelection = true
  · cases hL : f.Layers.get? li <;>
      rw [List.get?_eq_getElem?] at hL <;> simp [hds, hL]
  · rw [Bool.not_eq_true] at hds
    cases hL : f.Layers.get? li <;>
      rw [List.get?_eq_getElem?] at hL <;> simp [hds, hL]

/-- Full behaviour of undoing one pixel entry addressed at a valid layer. -/
theorem undoPixelCase_spec (f : File) (ps : PSMap) (li : Nat) (hli : li < f.Layers.length) :
    ∃ g, undoPixelCase f ps li = .ok g ∧
      g.History = f.History ∧
      g.historyOffset = f.historyOffset ∧
      g.CurrentLayer = f.CurrentLayer ∧
      g.Layers.length = f.Layers.length ∧
      g.HistoryMaxActions = f.HistoryMaxActions ∧
      (∀ p, layerColor g li p = (match ps p with
        | some psd => psd.Prev
        | none => layerColor f li p)) ∧
      (∀ i, i ≠ li → ∀ q, layerColor g i q = layerColor f i q) ∧
      g.DoingSelection = false ∧
      (f.DoingSelection = true → (∀ p, g.Selection p = none) ∧ g.SelectionMoving = false) := by
  rw [undoPixelCase_eq]
  cases hL : f.Layers.get? li with
  | none =>
      exfalso
      rw [List.get?_eq_getElem?, List.getElem?_eq_none_iff] at hL
      omega
  | some layer =>
      refine ⟨_, rfl, rfl, rfl, rfl, by simp, rfl, ?_, ?_, rfl, ?_⟩
      · intro p
        have hg := list_get?_set_self f.Layers li
          (Layer.Redraw ({ layer with PixelData := psPrevMerge ps layer.PixelData })) hli
        rw [layerColor_eq_of_get hg p]
        cases hps : ps p
        · simp only [Layer.Redraw, psPrevMerge, hps]
          exact (layerColor_eq_of_get hL p).symm
        · simp only [Layer.Redraw, psPrevMerge, hps]
          rfl
      · intro i hi q
        have hg := list_get?_set_ne f.Layers li i
          (Layer.Redraw ({ layer with PixelData := psPrevMerge ps layer.PixelData }))
          (fun he => hi he.symm)
        show layerColor _ i q = layerColor f i q
        unfold layerColor
        rw [hg]
      · intro hds
        constructor
        · intro p
          show (if f.DoingSelection then PixelMap.empty else f.Selection) p = none
          rw [if_pos hds]
          rfl
        · show (if f.DoingSelection then false else f.SelectionMoving) = false
          rw [if_pos hds]

/-- One `Undo` call on a document whose entry at the cursor is a pixel entry
for a valid layer: the cursor advances, the history is untouched, the layer
gets its recorded `Prev` values back, and any active selection is
discarded. -/
theorem undo_pixel_step (f : File) (pre post : List HistoryAction) (ps : PSMap) (li : Nat)
    (hh : f.History = pre ++ (.pixel ps li) :: post)
    (hoff : f.historyOffset = post.length)
    (hli : li < f.Layers.length) :
    ∃ g, f.Undo = .ok g ∧
      g.History = f.History ∧
      g.historyOffset = post.length + 1 ∧
      g.CurrentLayer = f.CurrentLayer ∧
      g.Layers.length = f.Layers.length ∧
      g.HistoryMaxActions = f.HistoryMaxActions ∧
      (∀ p, layerColor g li p = (match ps p with
        | some psd => psd.Prev
        | none => layerColor f li p)) ∧
      (∀ i, i ≠ li → ∀ q, layerColor g i q = layerColor f i q) ∧
      g.DoingSelection = false ∧
      (f.DoingSelection = true → (∀ p, g.Selection p = none) ∧ g.SelectionMoving = false) := by
  have hlenH : f.History.length = pre.length + post.length + 1 := by
    rw [hh]
    simp [List.length_append]
    omega
  have hlt : f.historyOffset < f.History.length := by omega
  have hidx : f.History.length - (f.historyOffset + 1) = pre.length := by omega
  have hget : f.History.get? (f.History.length - (f.historyOffset + 1))
      = some (HistoryAction.pixel ps li) := by
    rw [hidx, hh]
    exact list_get?_append_cons pre _ post
  obtain ⟨g, hrun, hH, hO, hCL, hLen, hMax, hself, hother, hDS, hsel⟩ :=
    undoPixelCase_spec ({ f with historyOffset := f.historyOffset + 1 }) ps li hli
  refine ⟨g, ?_, hH, ?_, hCL, hLen, hMax, hself, hother, hDS, hsel⟩
  · show f.Undo = .ok g
    unfold File.Undo
    rw [if_pos hlt, hget]
    simp only [processUndo]
    exact hrun
  · rw [hO]
    show f.historyOffset + 1 = post.length + 1
    rw [hoff]

/-- Undoing a whole run of accurate pixel entries sitting just below the
cursor restores the starting colour view of layer `L`, touches no other
layer, and only advances the cursor. -/
theorem undoN_accurate (L : Nat) (E : List HistoryAction) :
    ∀ (f : File) (pre post : List HistoryAction) (c0 : IntVec2 → Color),
    f.History = pre ++ E ++ post →
    f.historyOffset = post.length →
    L < f.Layers.length →
    AccurateChain L c0 E (fun p => layerColor f L p) →
    ∃ g, undoN E.length f = .ok g ∧
      (∀ p, layerColor g L p = c0 p) ∧
      (∀ i, i ≠ L → ∀ q, layerColor g i q = layerColor f i q) ∧
      g.History = f.History ∧
      g.historyOffset = post.length + E.length ∧
      g.CurrentLayer = f.CurrentLayer ∧
      g.Layers.length = f.Layers.length ∧
      g.HistoryMaxActions = f.HistoryMaxActions := by
  induction E using List.reverseRecOn with
  | nil =>
      intro f pre post c0 hh hoff hL hchain
      cases hchain
      exact ⟨f, rfl, fun p => rfl, fun _ _ _ => rfl, rfl, by simp [hoff], rfl, rfl, rfl⟩
  | append_singleton E e ih =>
      intro f pre post c0 hh hoff hL hchain
      obtain ⟨cMid, ps, hch, he, hlast⟩ := accurateChain_append_one hchain
      subst he
      have hh2 : f.History = (pre ++ E) ++ (HistoryAction.pixel ps L) :: post := by
        rw [hh]
        simp [List.append_assoc]
      obtain ⟨g1, hrun1, hH1, hO1, hCL1, hLen1, hMax1, hself1, hother1, hDS1, hsel1⟩ :=
        undo_pixel_step f (pre ++ E) post ps L hh2 hoff hL
      have hcol1 : ∀ p, layerColor g1 L p = cMid p := by
        intro p
        rw [hself1 p]
        cases hps : ps p with
        | none => exact (hlast p).1 hps
        | some psd => exact ((hlast p).2 psd hps).1
      have hfix : cMid = fun p => layerColor g1 L p := funext fun p => (hcol1 p).symm
      rw [hfix] at hch
      have hh3 : g1.History = pre ++ E ++ ((HistoryAction.pixel ps L) :: post) := by
        rw [hH1, hh]
        simp [List.append_assoc]
      have hoff3 : g1.historyOffset = ((HistoryAction.pixel ps L) :: post).length := by
        rw [hO1]
        simp
      have hL3 : L < g1.Layers.length := by rw [hLen1]; exact hL
      obtain ⟨g, hrun2, hc0, hother2, hH2, hO2, hCL2, hLen2, hMax2⟩ :=
        ih g1 pre ((HistoryAction.pixel ps L) :: post) c0 hh3 hoff3 hL3 hch
      refine ⟨g, ?_, hc0, ?_, ?_, ?_, ?_, ?_, ?_⟩
      · have hlen : (E ++ [HistoryAction.pixel ps L]).length = E.length + 1 := by simp
        rw [hlen]
        show undoN (E.length + 1) f = .ok g
        simp only [undoN, hrun1]
        exact hrun2
      · intro i hi q
        rw [hother2 i hi q]
        exact hother1 i hi q
      · rw [hH2]
        exact hH1
      · rw [hO2]
        simp
        omega
      · rw [hCL2]
        exact hCL1
      · rw [hLen2]
        exact hLen1
      · rw [hMax2]
        exact hMax1

/-- `redoPixelCase` written as one record update. -/
theorem redoPixelCase_eq (f : File) (ps : PSMap) (li : Nat) :
    redoPixelCase f ps li = (match f.Layers.get? li with
      | some layer => GoResult.ok { f with
          Layers := f.Layers.set li
            (Layer.Redraw ({ layer with PixelData := psCurrentMerge ps layer.PixelData })) }
      | none => GoResult.panicked) := by
  unfold redoPixelCase File.SetCurrentLayer
  cases hL : f.Layers.get? li <;>
    rw [List.get?_eq_getElem?] at hL <;> simp [hL]

/-- Full behaviour of redoing one pixel entry addressed at a valid layer. -/
theorem redoPixelCase_spec (f : File) (ps : PSMap) (li : Nat) (hli : li < f.Layers.length) :
    ∃ g, redoPixelCase f ps li = .ok g ∧
      g.History = f.History ∧
      g.historyOffset = f.historyOffset ∧
      g.CurrentLayer = f.CurrentLayer ∧
      g.Layers.length = f.Layers.length ∧
      g.HistoryMaxActions = f.HistoryMaxActions ∧
      (∀ p, layerColor g li p = (match ps p with
        | some psd => psd.Current
        | none => layerColor f li p)) ∧
      (∀ i, i ≠ li → ∀ q, layerColor g i q = layerColor f i q) := by
  rw [redoPixelCase_eq]
  cases hL : f.Layers.get? li with
  | none =>
      exfalso
      rw [List.get?_eq_getElem?, List.getElem?_eq_none_iff] at hL
      omega
  | some layer =>
      refine ⟨_, rfl, rfl, rfl, rfl, by simp, rfl, ?_, ?_⟩
      · intro p
        have hg := list_get?_set_self f.Layers li
          (Layer.Redraw ({ layer with PixelData := psCurrentMerge ps layer.PixelData })) hli
        rw [layerColor_eq_of_get hg p]
        cases hps : ps p
        · simp only [Layer.Redraw, psCurrentMerge, hps]
          exact (layerColor_eq_of_get hL p).symm
        · simp only [Layer.Redraw, psCurrentMerge, hps]
          rfl
      · intro i hi q
        have hg := list_get?_set_ne f.Layers li i
          (Layer.Redraw ({ layer with PixelData := psCurrentMerge ps layer.PixelData }))
          (fun he => hi he.symm)
        show layerColor _ i q = layerColor f i q
        unfold layerColor
        rw [hg]

/-- One `Redo` call on a document whose entry at the cursor is a pixel
entry for a valid layer: the cursor retreats, the history is untouched, and
the layer gets its recorded `Current` values. -/
theorem redo_pixel_step (f : File) (pre post : List HistoryAction) (ps : PSMap) (li : Nat)
    (hh : f.History = pre ++ (.pixel ps li) :: post)
    (hoff : f.historyOffset = post.length + 1)
    (hli : li < f.Layers.length) :
    ∃ g, f.Redo = .ok g ∧
      g.History = f.History ∧
      g.historyOffset = post.length ∧
      g.CurrentLayer = f.CurrentLayer ∧
      g.Layers.length = f.Layers.length ∧
      g.HistoryMaxActions = f.HistoryMaxActions ∧
      (∀ p, layerColor g li p = (match ps p with
        | some psd => psd.Current
        | none => layerColor f li p)) ∧
      (∀ i, i ≠ li → ∀ q, layerColor g i q = layerColor f i q) := by
  have hlenH : f.History.length = pre.length + post.length + 1 := by
    rw [hh]
    simp [List.length_append]
    omega
  have hpos : 0 < f.historyOffset := by omega
  have hidx : f.History.length - f.historyOffset = pre.length := by omega
  have hget : f.History.get? (f.History.length - f.historyOffset)
      = some (HistoryAction.pixel ps li) := by
    rw [hidx, hh]
    exact list_get?_append_cons pre _ post
  obtain ⟨g, hrun, hH, hO, hCL, hLen, hMax, hself, hother⟩ :=
    redoPixelCase_spec ({ f with historyOffset := f.historyOffset - 1 }) ps li hli
  refine ⟨g, ?_, hH, ?_, hCL, hLen, hMax, hself, hother⟩
  · show f.Redo = .ok g
    unfold File.Redo
    rw [if_pos hpos, hget]
    simp only [processRedo]
    exact hrun
  · rw [hO]
    show f.historyOffset - 1 = post.length
    omega

/-- Redoing a whole run of accurate pixel entries at the cursor restores the
final colour view of layer `L`, touches no other layer, and only retreats
the cursor. -/
theorem redoN_accurate (L : Nat) (E : List HistoryAction) :
    ∀ (f : File) (pre post : List HistoryAction) (c0 cN : IntVec2 → Color),
    f.History = pre ++ E ++ post →
    f.historyOffset = E.length + post.length →
    L < f.Layers.length →
    AccurateChain L c0 E cN →
    (∀ p, layerColor f L p = c0 p) →
    ∃ g, redoN E.length f = .ok g ∧
      (∀ p, layerColor g L p = cN p) ∧
      (∀ i, i ≠ L → ∀ q, layerColor g i q = layerColor f i q) ∧
      g.History = f.History ∧
      g.historyOffset = post.length ∧
      g.CurrentLayer = f.CurrentLayer ∧
      g.Layers.length = f.Layers.length ∧
      g.HistoryMaxActions = f.HistoryMaxActions := by
  induction E with
  | nil =>
      intro f pre post c0 cN hh hoff hL hchain hc0
      cases hchain
      exact ⟨f, rfl, hc0, fun _ _ _ => rfl, rfl, by simpa using hoff, rfl, rfl, rfl⟩
  | cons e E ihE =>
      intro f pre post c0 cN hh hoff hL hchain hc0
      cases hchain with
      | cons hacc hrest =>
          rename_i c2 ps
          have hh2 : f.History = pre ++ (HistoryAction.pixel ps L) :: (E ++ post) := by
            rw [hh]
            simp
          have hoff2 : f.historyOffset = (E ++ post).length + 1 := by
            rw [hoff]
            simp
            omega
          obtain ⟨g1, hrun1, hH1, hO1, hCL1, hLen1, hMax1, hself1, hother1⟩ :=
            redo_pixel_step f pre (E ++ post) ps L hh2 hoff2 hL
          have hcol1 : ∀ p, layerColor g1 L p = c2 p := by
            intro p
            rw [hself1 p]
            cases hps : ps p with
            | none =>
                rw [hc0 p]
                exact ((hacc p).1 hps).symm
            | some psd => exact ((hacc p).2 psd hps).2
          have hfix : c2 = fun p => layerColor g1 L p := funext fun p => (hcol1 p).symm
          rw [hfix] at hrest
          have hh3 : g1.History = (pre ++ [HistoryAction.pixel ps L]) ++ E ++ post := by
            rw [hH1, hh]
            simp
          have hoff3 : g1.historyOffset = E.length + post.length := by
            rw [hO1]
            simp
          have hL3 : L < g1.Layers.length := by rw [hLen1]; exact hL
          obtain ⟨g, hrun2, hcN, hother2, hH2, hO2, hCL2, hLen2, hMax2⟩ :=
            ihE g1 (pre ++ [HistoryAction.pixel ps L]) post _ cN hh3 hoff3 hL3 hrest
              (fun p => rfl)
          refine ⟨g, ?_, hcN, ?_, ?_, hO2, ?_, ?_, ?_⟩
          · show redoN (E.length + 1) f = .ok g
            simp only [redoN, hrun1]
            exact hrun2
          · intro i hi q
            rw [hother2 i hi q]
            exact hother1 i hi q
          · rw [hH2]
            exact hH1
          · rw [hCL2]
            exact hCL1
          · rw [hLen2]
            exact hLen1
          · rw [hMax2]
            exact hMax1

/-- C1 (amended): for every document satisfying the reachable-state
invariants and every sequence of at most `HistoryMaxActions` pixel-edit
gestures — each opened with `AppendHistory` and populated by `DrawPixel`
calls at pairwise-distinct coordinates — the edits succeed, N `Undo` calls
restore every layer's colour at every coordinate to its pre-edit value, and
N `Redo` calls then restore the post-edit colours exactly.  (Without the
distinct-coordinates condition the round trip fails, because `DrawPixel`
overwrites the recorded `Prev` on a repeated touch: see the counterexample
for this claim.) -/
theorem pixel_edit_round_trip (f0 : File) (es : List (List DrawCall))
    (hcl : f0.CurrentLayer < f0.Layers.length)
    (hmax : 1 ≤ f0.HistoryMaxActions)
    (hoff : f0.historyOffset ≤ f0.History.length)
    (hlen : f0.History.length ≤ f0.HistoryMaxActions)
    (hN : es.length ≤ f0.HistoryMaxActions)
    (hnd : ∀ ds ∈ es, (ds.map DrawCall.pos).Nodup) :
    ∃ fN fU fR, applyEntries f0 es = .ok fN ∧
      undoN es.length fN = .ok fU ∧
      (∀ i p, layerColor fU i p = layerColor f0 i p) ∧
      redoN es.length fU = .ok fR ∧
      (∀ i p, layerColor fR i p = layerColor fN i p) := by
  by_cases hes : es = []
  · subst hes
    exact ⟨f0, f0, f0, rfl, rfl, fun _ _ => rfl, rfl, fun _ _ => rfl⟩
  · obtain ⟨g, E, cN, hrun, hh, hElen, hchain, hfinal, hother, hCL, hLen, hMax, hoffg⟩ :=
      applyEntries_accurate es f0 hes hcl hmax hoff hlen hN hnd
    have hcfix : cN = fun p => layerColor g f0.CurrentLayer p :=
      funext fun p => (hfinal p).symm
    rw [hcfix] at hchain
    have hh2 : g.History = ((f0.History.take (f0.History.length - f0.historyOffset)).drop
        (f0.History.length - f0.historyOffset + es.length - f0.HistoryMaxActions)) ++ E
        ++ ([] : List HistoryAction) := by
      rw [hh]
      simp
    have hoffg2 : g.historyOffset = ([] : List HistoryAction).length := by
      simpa using hoffg
    have hLg : f0.CurrentLayer < g.Layers.length := by rw [hLen]; exact hcl
    obtain ⟨fU, hrunU, hc0, hotherU, hHU, hOU, hCLU, hLenU, hMaxU⟩ :=
      undoN_accurate f0.CurrentLayer E g _ []
        (fun p => layerColor f0 f0.CurrentLayer p) hh2 hoffg2 hLg hchain
    have hallU : ∀ i p, layerColor fU i p = layerColor f0 i p := by
      intro i p
      by_cases hi : i = f0.CurrentLayer
      · subst hi
        exact hc0 p
      · rw [hotherU i hi p]
        exact hother i hi p
    have hLU : f0.CurrentLayer < fU.Layers.length := by rw [hLenU, hLen]; exact hcl
    have hhU : fU.History = ((f0.History.take (f0.History.length - f0.historyOffset)).drop
        (f0.History.length - f0.historyOffset + es.length - f0.HistoryMaxActions)) ++ E
        ++ ([] : List HistoryAction) := by
      rw [hHU]
      exact hh2
    have hoffU : fU.historyOffset = E.length + ([] : List HistoryAction).length := by
      rw [hOU]
      simp
    obtain ⟨fR, hrunR, hcNR, hotherR, hHR, hOR, hCLR, hLenR, hMaxR⟩ :=
      redoN_accurate f0.CurrentLayer E fU _ []
        (fun p => layerColor f0 f0.CurrentLayer p)
        (fun p => layerColor g f0.CurrentLayer p) hhU hoffU hLU hchain hc0
    have hallR : ∀ i p, layerColor fR i p = layerColor g i p := by
      intro i p
      by_cases hi : i = f0.CurrentLayer
      · subst hi
        exact hcNR p
      · rw [hotherR i hi p, hotherU i hi p, hother i hi p]
    exact ⟨g, fU, fR, hrun, hElen ▸ hrunU, hallU, hElen ▸ hrunR, hallR⟩

/-- Witness: the amended round-trip theorem applied to a concrete blank
4×4 document and a concrete two-gesture edit sequence. -/
theorem pixel_edit_round_trip_witness :
    ∃ fN fU fR,
      applyEntries baseFile [[⟨1, 1, Color.Red⟩, ⟨2, 1, Color.Red⟩], [⟨1, 1, Color.Blue⟩]]
        = .ok fN ∧
      undoN 2 fN = .ok fU ∧
      (∀ i p, layerColor fU i p = layerColor baseFile i p) ∧
      redoN 2 fU = .ok fR ∧
      (∀ i p, layerColor fR i p = layerColor fN i p) :=
  pixel_edit_round_trip baseFile [[⟨1, 1, Color.Red⟩, ⟨2, 1, Color.Red⟩], [⟨1, 1, Color.Blue⟩]]
    (by decide) (by decide) (by decide) (by decide) (by decide) (by decide)

/-- C1 counterexample to the claim as stated: drawing `(1,1) = Red` and then
`(1,1) = Blue` inside one gesture on a blank 4×4 canvas and undoing once
leaves `(1,1)` Red — not the original transparent — because `DrawPixel`
overwrote the entry's recorded `Prev` with the intermediate Red. -/
theorem pixel_edit_round_trip_counterexample :
    ∃ fN fU, applyEntries baseFile c1Edits = .ok fN ∧
      undoN 1 fN = .ok fU ∧
      layerColor fU 0 ⟨1, 1⟩ = Color.Red ∧
      layerColor baseFile 0 ⟨1, 1⟩ = Color.Transparent ∧
      Color.Red ≠ Color.Transparent := by
  refine ⟨_, _, rfl, rfl, by decide, by decide, by decide⟩

/-- C2, evaluated: in the spec's 4×4 scenario (one open `PixelEdit` entry;
draw `(1,1) = Red` then `(1,1) = Blue`, both recorded) the document ends
with exactly one history entry whose delta at `(1,1)` is
`{Prev: Red, Current: Blue}` — not `{previous: transparent, …}` as the spec
states — and `Undo` therefore restores `(1,1)` to Red, not transparent. -/
theorem single_gesture_overwrites_prev :
    ∃ fN ps fU,
      applyEntry baseFile c2Draws = .ok fN ∧
      fN.History = [.pixel ps 0] ∧
      ps ⟨1, 1⟩ = some ⟨Color.Red, Color.Blue⟩ ∧
      fN.Undo = .ok fU ∧
      layerColor fU 0 ⟨1, 1⟩ = Color.Red ∧
      Color.Red ≠ Color.Transparent := by
  refine ⟨_, _, _, rfl, rfl, by decide, rfl, by decide, by decide⟩

/-- Reading a mapped list. -/
theorem list_get?_map {α β : Type} (g : α → β) (l : List α) :
    ∀ i : Nat, (l.map g).get? i = (l.get? i).map g := by
  induction l with
  | nil => intro i; cases i <;> rfl
  | cons a l ih =>
      intro i
      cases i with
      | zero => rfl
      | succ n => simpa using ih n

/-- `Layer.Resize` never touches the pixel mapping (it only rebuilds the
texture). -/
theorem Layer_Resize_PixelData (l : Layer) (w h : Int) (dir : ResizeDirection) (ctx : File) :
    (l.Resize w h dir ctx).PixelData = l.PixelData := rfl

/-- History written by `ResizeCanvas`: the truncated log plus one
`HistoryResize` whose previous snapshots are exactly the layers' (untouched)
pixel mappings and whose previous dimensions are the pre-resize canvas
size. -/
theorem ResizeCanvas_History (f : File) (w h : Int) (dir : ResizeDirection)
    (hlenoff : f.History.length - f.historyOffset ≤ f.HistoryMaxActions) :
    (f.ResizeCanvas w h dir).History
      = (f.History.take (f.History.length - f.historyOffset)).drop
          (f.History.length - f.historyOffset + 1 - f.HistoryMaxActions)
        ++ [.resize (f.Layers.map (fun l => l.PixelData))
              ((f.Layers.map (fun l => l.Resize w h dir f)).map (fun l => l.PixelData))
              f.CanvasWidth f.CanvasHeight w h] := by
  rw [show (f.ResizeCanvas w h dir).History = (File.AppendHistory ({ f with Layers := f.Layers.map (fun l => l.Resize w h dir f) }) (.resize (f.Layers.map (fun l => l.PixelData)) ((f.Layers.map (fun l => l.Resize w h dir f)).map (fun l => l.PixelData)) f.CanvasWidth f.CanvasHeight w h)).History from rfl]
  rw [AppendHistory_History ({ f with Layers := f.Layers.map (fun l => l.Resize w h dir f) }) _ hlenoff]

/-- `ResizeCanvas` resets the undo cursor. -/
theorem ResizeCanvas_historyOffset (f : File) (w h : Int) (dir : ResizeDirection) :
    (f.ResizeCanvas w h dir).historyOffset = 0 := rfl

/-- The layer list after `ResizeCanvas`. -/
theorem ResizeCanvas_Layers (f : File) (w h : Int) (dir : ResizeDirection) :
    (f.ResizeCanvas w h dir).Layers = f.Layers.map (fun l => l.Resize w h dir f) := rfl

/-- `ResizeCanvas` adopts the new canvas width. -/
theorem ResizeCanvas_CanvasWidth (f : File) (w h : Int) (dir : ResizeDirection) :
    (f.ResizeCanvas w h dir).CanvasWidth = w := rfl

/-- `ResizeCanvas` adopts the new canvas height. -/
theorem ResizeCanvas_CanvasHeight (f : File) (w h : Int) (dir : ResizeDirection) :
    (f.ResizeCanvas w h dir).CanvasHeight = h := rfl

/-- The snapshot-reinstalling loop of the resize undo/redo: with enough
layers it succeeds, leaves everything but the layer list (and each touched
layer's texture) alone, and installs snapshot `k` as the pixel mapping of
layer `i + k`. -/
theorem resizeRestoreAux_spec (pds : List PixelMap) :
    ∀ (f : File) (w h : Int) (i : Nat),
    i + pds.length ≤ f.Layers.length →
    ∃ g, resizeRestoreAux f pds w h i = .ok g ∧
      g.Layers.length = f.Layers.length ∧
      g.History = f.History ∧
      g.historyOffset = f.historyOffset ∧
      g.CurrentLayer = f.CurrentLayer ∧
      g.HistoryMaxActions = f.HistoryMaxActions ∧
      g.CanvasWidth = f.CanvasWidth ∧
      g.CanvasHeight = f.CanvasHeight ∧
      (∀ j, j < i → (g.Layers.get? j).map (fun l => l.PixelData)
        = (f.Layers.get? j).map (fun l => l.PixelData)) ∧
      (∀ k, k < pds.length → (g.Layers.get? (i + k)).map (fun l => l.PixelData) = pds.get? k) ∧
      (∀ j, i + pds.length ≤ j → (g.Layers.get? j).map (fun l => l.PixelData)
        = (f.Layers.get? j).map (fun l => l.PixelData)) := by
  induction pds with
  | nil =>
      intro f w h i _
      exact ⟨f, rfl, rfl, rfl, rfl, rfl, rfl, rfl, rfl,
        fun _ _ => rfl, fun k hk => by simp at hk, fun _ _ => rfl⟩
  | cons pd rest ih =>
      intro f w h i hbound
      have hlen1 : (pd :: rest).length = rest.length + 1 := by simp
      rw [hlen1] at hbound
      have hi : i < f.Layers.length := by omega
      cases hL : f.Layers.get? i with
      | none =>
          exfalso
          rw [List.get?_eq_getElem?, List.getElem?_eq_none_iff] at hL
          omega
      | some layer =>
          set f2 : File := { f with Layers := f.Layers.set i (Layer.Resize ({ layer with PixelData := pd }) w h ResizeDirection.tl f) } with hf2
          have hbound2 : (i + 1) + rest.length ≤ f2.Layers.length := by
            rw [hf2]
            simp
            omega
          obtain ⟨g, hrun, hLen, hH, hO, hCL, hMax, hW, hHt, hlow, hmid, hhigh⟩ :=
            ih f2 w h (i + 1) hbound2
          have hLen2 : f2.Layers.length = f.Layers.length := by rw [hf2]; simp
          refine ⟨g, ?_, by rw [hLen, hLen2], hH, hO, hCL, hMax, hW, hHt, ?_, ?_, ?_⟩
          · show resizeRestoreAux f (pd :: rest) w h i = .ok g
            unfold resizeRestoreAux
            rw [hL]
            exact hrun
          · intro j hj
            rw [hlow j (by omega), hf2]
            show ((List.set f.Layers i _).get? j).map _ = _
            rw [list_get?_set_ne _ _ _ _ (by omega)]
          · intro k hk
            rw [hlen1] at hk
            cases k with
            | zero =>
                have h0 := hlow (i + 0) (by omega)
                rw [h0, hf2]
                show ((List.set f.Layers i (Layer.Resize ({ layer with PixelData := pd }) w h ResizeDirection.tl f)).get? i).map _ = _
                rw [list_get?_set_self _ _ _ hi]
                rfl
            | succ k2 =>
                have hx := hmid k2 (by omega)
                have hidxeq : i + (k2 + 1) = (i + 1) + k2 := by omega
                rw [hidxeq, hx]
                rfl
          · intro j hj
            rw [hlen1] at hj
            rw [hhigh j (by omega), hf2]
            show ((List.set f.Layers i _).get? j).map _ = _
            rw [list_get?_set_ne _ _ _ _ (by omega)]

/-- Reading the last element of a concatenation with a singleton. -/
theorem list_get?_concat_last {α : Type} (l : List α) (a : α) :
    (l ++ [a]).get? ((l ++ [a]).length - 1) = some a := by
  have hlen : (l ++ [a]).length - 1 = l.length := by simp
  rw [hlen]
  exact list_get?_append_cons l a []

/-- C3: `ResizeCanvas(w2, h2, anchor)` followed by one `Undo` restores every
layer's pixel mapping pixel-for-pixel and restores the previous canvas width
and height, for every anchor direction.  (`Layer.Resize` never modifies
`PixelData`; the recorded previous snapshots are those very mappings, and
the undo reinstalls them.) -/
theorem resize_undo_round_trip (f : File) (w h : Int) (dir : ResizeDirection)
    (hoff : f.historyOffset ≤ f.History.length)
    (hlen : f.History.length ≤ f.HistoryMaxActions)
    (hmax : 1 ≤ f.HistoryMaxActions) :
    ∃ g, (f.ResizeCanvas w h dir).Undo = .ok g ∧
      (∀ i, (g.Layers.get? i).map (fun l => l.PixelData)
        = (f.Layers.get? i).map (fun l => l.PixelData)) ∧
      g.CanvasWidth = f.CanvasWidth ∧
      g.CanvasHeight = f.CanvasHeight := by
  have hH := ResizeCanvas_History f w h dir (by omega)
  set r := f.ResizeCanvas w h dir with hr
  have hoffr : r.historyOffset = 0 := ResizeCanvas_historyOffset f w h dir
  have hlenH : 0 < r.History.length := by rw [hH]; simp
  have hgetr : r.History.get? (r.History.length - (r.historyOffset + 1))
      = some (.resize (f.Layers.map (fun l => l.PixelData))
          ((f.Layers.map (fun l => l.Resize w h dir f)).map (fun l => l.PixelData))
          f.CanvasWidth f.CanvasHeight w h) := by
    rw [hoffr, Nat.zero_add, hH]
    exact list_get?_concat_last _ _
  have hundo : r.Undo = undoResizeCase ({ r with historyOffset := r.historyOffset + 1 })
      (f.Layers.map (fun l => l.PixelData)) f.CanvasWidth f.CanvasHeight := by
    unfold File.Undo
    rw [if_pos (by omega), hgetr]
    simp only [processUndo]
  set f3 : File := { r with historyOffset := r.historyOffset + 1, CanvasWidthResizePreview := f.CanvasWidth, CanvasHeightResizePreview := f.CanvasHeight, CanvasWidth := f.CanvasWidth, CanvasHeight := f.CanvasHeight } with hf3
  have hlay : f3.Layers.length = f.Layers.length := by
    rw [hf3]
    show r.Layers.length = f.Layers.length
    rw [hr, ResizeCanvas_Layers]
    simp
  have hbound : 0 + (f.Layers.map (fun l => l.PixelData)).length ≤ f3.Layers.length := by
    simp [hlay]
  obtain ⟨g, hrun, hLen, hH2, hO2, hCL2, hMax2, hW2, hHt2, hlow, hmid, hhigh⟩ :=
    resizeRestoreAux_spec (f.Layers.map (fun l => l.PixelData)) f3
      f.CanvasWidth f.CanvasHeight 0 hbound
  refine ⟨g, ?_, ?_, ?_, ?_⟩
  · rw [hundo]
    unfold undoResizeCase
    exact hrun
  · intro i
    by_cases hi : i < (f.Layers.map (fun l => l.PixelData)).length
    · have hx := hmid i hi
      rw [Nat.zero_add] at hx
      rw [hx, list_get?_map]
    · have hx := hhigh i (by omega)
      rw [hx]
      have hfi : f.Layers.get? i = none := by
        rw [List.get?_eq_getElem?, List.getElem?_eq_none_iff]
        simp at hi
        omega
      have hf3i : f3.Layers.get? i = none := by
        rw [List.get?_eq_getElem?, List.getElem?_eq_none_iff]
        simp at hi
        omega
      rw [hfi, hf3i]
  · rw [hW2]
  · rw [hHt2]

/-- C3 witness: the resize round trip on the concrete 4×4 document, resizing
to 2×2 anchored bottom-right. -/
theorem resize_undo_round_trip_witness :
    ∃ g, (baseFile.ResizeCanvas 2 2 ResizeDirection.br).Undo = .ok g ∧
      (∀ i, (g.Layers.get? i).map (fun l => l.PixelData)
        = (baseFile.Layers.get? i).map (fun l => l.PixelData)) ∧
      g.CanvasWidth = baseFile.CanvasWidth ∧
      g.CanvasHeight = baseFile.CanvasHeight :=
  resize_undo_round_trip baseFile 2 2 ResizeDirection.br (by decide) (by decide) (by decide)

/-- `Undo` runs a compound's children from the first to the last. -/
theorem processUndoList_append (as bs : List HistoryAction) :
    ∀ f : File, processUndoList f (as ++ bs) = (match processUndoList f as with
      | .ok g => processUndoList g bs
      | .err m => .err m
      | .panicked => .panicked) := by
  induction as with
  | nil => intro f; rfl
  | cons a as ih =>
      intro f
      show processUndoList f (a :: (as ++ bs)) = _
      simp only [processUndoList]
      cases processUndo f a with
      | ok g => exact ih g
      | err m => rfl
      | panicked => rfl

/-- `Redo` runs a compound's children from the last to the first. -/
theorem processRedoList_append (as bs : List HistoryAction) :
    ∀ f : File, processRedoList f (as ++ bs) = (match processRedoList f bs with
      | .ok g => processRedoList g as
      | .err m => .err m
      | .panicked => .panicked) := by
  induction as with
  | nil =>
      intro f
      show processRedoList f bs = _
      cases h : processRedoList f bs with
      | ok g => rfl
      | err m => rfl
      | panicked => rfl
  | cons a as ih =>
      intro f
      show processRedoList f (a :: (as ++ bs)) = _
      simp only [processRedoList]
      rw [ih f]
      cases h : processRedoList f bs with
      | ok g => rfl
      | err m => rfl
      | panicked => rfl

/-- C4 (amended): the source processes a Compound's children in *forward*
order on Undo and in *reverse* order on Redo — the opposite of the claim.
Splitting the child list anywhere: undoing `as ++ bs` runs the `as` part
first, while redoing `as ++ bs` runs the `bs` part first. -/
theorem compound_order (f : File) (as bs : List HistoryAction) :
    processUndo f (.compound (as ++ bs)) = (match processUndo f (.compound as) with
      | .ok g => processUndo g (.compound bs)
      | .err m => .err m
      | .panicked => .panicked) ∧
    processRedo f (.compound (as ++ bs)) = (match processRedo f (.compound bs) with
      | .ok g => processRedo g (.compound as)
      | .err m => .err m
      | .panicked => .panicked) := by
  constructor
  · simp only [processUndo]
    exact processUndoList_append as bs f
  · simp only [processRedo]
    exact processRedoList_append as bs f

/-- C4 counterexample to the claim as stated: undoing the concrete compound
entry `[A, B]` (two pixel entries recording different `Prev` colours at
`(0,0)` of layer 0) leaves the colour of `B` — the children were processed
forward, A then B — whereas applying the children's inverses in reverse
order, as the claim states, leaves the colour of `A`. -/
theorem compound_order_counterexample :
    ∃ g1 g2,
      c4File.Undo = .ok g1 ∧ layerColor g1 0 ⟨0, 0⟩ = Color.Blue ∧
      undoChildrenReversed ({ c4File with historyOffset := 1 }) [c4EntryA, c4EntryB] = .ok g2 ∧
      layerColor g2 0 ⟨0, 0⟩ = Color.Red ∧
      Color.Blue ≠ Color.Red := by
  exact ⟨_, _, rfl, by decide, rfl, by decide, by decide⟩

/-- C5, evaluated at the failing input: with no animations, `GetAnimation 0`
and `DeleteAnimation 0` pass the source's `index-1 >= len(f.Animations)`
range check (`-1 >= 0` is false) and then index or slice out of range — a
runtime panic instead of the explicit "Animation not in range" failure. -/
theorem animation_range_check_panics :
    baseFile.Animations = [] ∧
    baseFile.GetAnimation 0 = .panicked ∧
    baseFile.DeleteAnimation 0 = .panicked :=
  ⟨rfl, rfl, rfl⟩

/-- Appending onto an initially empty log always keeps the suffix of the
appended entries that fits the capacity, in order. -/
theorem appendAll_History (as : List HistoryAction) :
    ∀ f : File,
    f.History = [] →
    f.historyOffset = 0 →
    1 ≤ f.HistoryMaxActions →
    (appendAll f as).History = as.drop (as.length - f.HistoryMaxActions) ∧
    (appendAll f as).historyOffset = 0 ∧
    (appendAll f as).HistoryMaxActions = f.HistoryMaxActions := by
  induction as using List.reverseRecOn with
  | nil =>
      intro f hH hO _
      exact ⟨by simp [appendAll, hH], hO, rfl⟩
  | append_singleton as a ih =>
      intro f hH hO hm
      have hfold : appendAll f (as ++ [a]) = (appendAll f as).AppendHistory a := by
        unfold appendAll
        rw [List.foldl_append]
        rfl
      obtain ⟨ihH, ihO, ihM⟩ := ih f hH hO hm
      have hGlen : (appendAll f as).History.length
          = as.length - (as.length - f.HistoryMaxActions) := by
        rw [ihH]
        simp [List.length_drop]
      have happ := AppendHistory_History (appendAll f as) a (by omega)
      rw [ihO, Nat.sub_zero, List.take_length, ihM, ihH] at happ
      rw [hfold]
      refine ⟨?_, rfl, by rw [AppendHistory_max]; exact ihM⟩
      rw [happ, List.drop_drop, List.drop_append_eq_append_drop]
      have hz : as.length + 1 - f.HistoryMaxActions - as.length = 0 := by omega
      have hdx : (as ++ [a]).length - f.HistoryMaxActions
          = as.length + 1 - f.HistoryMaxActions := by simp
      rw [hdx, hz, List.drop_zero]
      congr 1
      simp only [List.length_drop]
      congr 1
      omega

/-- C6: the history log is bounded.  (i) From any reachable state one
`AppendHistory` call keeps `len(History) ≤ HistoryMaxActions`.  (ii)
Starting from an empty log, appending `HistoryMaxActions + k` entries
leaves exactly `HistoryMaxActions` entries: the appended list minus its
first `k` elements, in order — the oldest entry was evicted before each
append at capacity. -/
theorem history_bounded (f : File) (a : HistoryAction) (f0 : File)
    (as : List HistoryAction) (k : Nat)
    (hmax : 1 ≤ f.HistoryMaxActions)
    (hoff : f.historyOffset ≤ f.History.length)
    (hlen : f.History.length ≤ f.HistoryMaxActions) :
    (f.AppendHistory a).History.length ≤ f.HistoryMaxActions ∧
    (f0.History = [] → f0.historyOffset = 0 → 1 ≤ f0.HistoryMaxActions →
      as.length = f0.HistoryMaxActions + k →
      (appendAll f0 as).History = as.drop k ∧
      (appendAll f0 as).History.length = f0.HistoryMaxActions) := by
  constructor
  · exact AppendHistory_length_le f a hmax (by omega)
  · intro hH0 hO0 hm0 hask
    obtain ⟨hisH, _, _⟩ := appendAll_History as f0 hH0 hO0 hm0
    have hk : as.length - f0.HistoryMaxActions = k := by omega
    rw [hk] at hisH
    refine ⟨hisH, ?_⟩
    rw [hisH]
    simp [List.length_drop]
    omega

/-- Witness for the bounded-history theorem: capacity 2, three appends
evict exactly the first entry. -/
theorem history_bounded_witness :
    (c6File.AppendHistory dummyEntry).History.length ≤ c6File.HistoryMaxActions ∧
    (appendAll c6File [dummyEntry, dummyEntry2, dummyEntry3]).History
      = [dummyEntry, dummyEntry2, dummyEntry3].drop 1 ∧
    (appendAll c6File [dummyEntry, dummyEntry2, dummyEntry3]).History.length
      = c6File.HistoryMaxActions := by
  have h := history_bounded c6File dummyEntry c6File [dummyEntry, dummyEntry2, dummyEntry3] 1
    (by decide) (by decide) (by decide)
  exact ⟨h.1, (h.2 rfl rfl (by decide) (by decide)).1, (h.2 rfl rfl (by decide) (by decide)).2⟩

/-- C7: after undoing M ≥ 1 steps, appending any new entry truncates the
log beyond the undo cursor, resets the cursor to zero, and makes a
subsequent `Redo` a no-op returning the document unchanged. -/
theorem append_invalidates_redo (f : File) (a : HistoryAction) (M : Nat)
    (hM : f.historyOffset = M) (h1 : 1 ≤ M)
    (hoff : f.historyOffset ≤ f.History.length)
    (hlen : f.History.length ≤ f.HistoryMaxActions) :
    (f.AppendHistory a).History = f.History.take (f.History.length - M) ++ [a] ∧
    (f.AppendHistory a).historyOffset = 0 ∧
    (f.AppendHistory a).Redo = .ok (f.AppendHistory a) := by
  have hH := AppendHistory_History f a (by omega)
  refine ⟨?_, rfl, ?_⟩
  · rw [hH, hM]
    have hz : f.History.length - M + 1 - f.HistoryMaxActions = 0 := by omega
    rw [hz, List.drop_zero]
  · have h0 : (f.AppendHistory a).historyOffset = 0 := rfl
    unfold File.Redo
    rw [h0]
    rfl

/-- Witness: two recorded entries, one undone; appending a third entry
drops the undone one, and `Redo` then does nothing. -/
theorem append_invalidates_redo_witness :
    (c7File.AppendHistory dummyEntry3).History = c7File.History.take 1 ++ [dummyEntry3] ∧
    (c7File.AppendHistory dummyEntry3).historyOffset = 0 ∧
    (c7File.AppendHistory dummyEntry3).Redo = .ok (c7File.AppendHistory dummyEntry3) :=
  append_invalidates_redo c7File dummyEntry3 1 rfl (by decide) (by decide) (by decide)

/-- C8 (amended): with a valid current layer and `saveToHistory = true`,
`DrawPixel` reads the last history element exactly when the draw is an
effective change (in-canvas, and the blended colour differs from the
existing one); the call panics iff that conditional read happens on an
empty history.  The read is *not* unconditional. -/
theorem drawPixel_panic_iff (f : File) (x y : Int) (c : Color)
    (hcl : f.CurrentLayer < f.Layers.length) :
    f.DrawPixel x y c true = .panicked ↔
      (inCanvas f x y ∧ drawOldColor f x y ≠ drawBlended f x y c ∧ f.History = []) := by
  rw [DrawPixel_eval f x y c hcl]
  by_cases hin : inCanvas f x y
  · rw [if_pos hin]
    by_cases hsame : drawOldColor f x y = drawBlended f x y c
    · rw [if_pos hsame]
      simp [hsame]
    · rw [if_neg hsame]
      cases hl : f.History.getLast? with
      | none =>
          have hnil : f.History = [] := by
            cases hHis : f.History with
            | nil => rfl
            | cons b bs =>
                rw [hHis] at hl
                simp at hl
          simp [hin, hsame, hnil]
      | some e =>
          have hne : f.History ≠ [] := by
            intro hisnil
            rw [hisnil] at hl
            simp at hl
          cases e <;> simp [hin, hsame, hne]
  · rw [if_neg hin]
    simp [hin]

/-- Witness: on an empty history, an in-bounds recorded draw of an opaque
colour over a blank pixel is an effective change and panics. -/
theorem drawPixel_panic_iff_witness :
    baseFile.DrawPixel 1 1 Color.Red true = .panicked :=
  (drawPixel_panic_iff baseFile 1 1 Color.Red (by decide)).mpr
    ⟨by decide, by decide, rfl⟩

/-- C8 counterexample to the claim as stated: on an *empty* history, an
in-bounds `DrawPixel` with `saveToHistory = true` that causes no effective
change (transparent over an already-empty pixel) never reads the history
and returns normally — so the last-element read is conditional, and
panic-freedom does not require a non-empty history. -/
theorem drawPixel_unconditional_read_counterexample :
    baseFile.History = [] ∧ inCanvas baseFile 1 1 ∧
    (baseFile.DrawPixel 1 1 Color.Transparent true).isOk = true :=
  ⟨rfl, by decide, rfl⟩

/-- C9: with a valid current layer, `DrawPixel` with `saveToHistory = false`
returns the very same document: the layer's pixel mapping, its texture and
the history log are all untouched — the flag gates the pixel write itself,
not only the recording.  (The current-layer lookup still precedes the flag
test, so only an out-of-range `CurrentLayer` — unreachable through the
public operations — could panic.) -/
theorem drawPixel_no_save_noop (f : File) (x y : Int) (c : Color)
    (hcl : f.CurrentLayer < f.Layers.length) :
    f.DrawPixel x y c false = .ok f := by
  unfold File.DrawPixel
  cases hL : f.Layers.get? f.CurrentLayer with
  | none =>
      exfalso
      rw [List.get?_eq_getElem?, List.getElem?_eq_none_iff] at hL
      omega
  | some l => rfl

/-- Witness for the unrecorded-draw no-op. -/
theorem drawPixel_no_save_noop_witness :
    baseFile.DrawPixel 1 1 Color.Red false = .ok baseFile :=
  drawPixel_no_save_noop baseFile 1 1 Color.Red (by decide)

/-- C10: whenever `Undo` processes a `PixelEdit` entry while a selection is
active, the floating selection is discarded without being committed: in the
result the selection map is empty and both selection flags are cleared, and
the target layer holds exactly the recorded `Prev` values — no selection
content reaches the layer. -/
theorem undo_pixel_discards_selection (f : File) (pre post : List HistoryAction)
    (ps : PSMap) (li : Nat)
    (hsel : f.DoingSelection = true)
    (hh : f.History = pre ++ (.pixel ps li) :: post)
    (hoff : f.historyOffset = post.length)
    (hli : li < f.Layers.length) :
    ∃ g, f.Undo = .ok g ∧
      (∀ p, g.Selection p = none) ∧
      g.DoingSelection = false ∧
      g.SelectionMoving = false ∧
      (∀ p psd, ps p = some psd → layerColor g li p = psd.Prev) ∧
      (∀ p, ps p = none → layerColor g li p = layerColor f li p) := by
  obtain ⟨g, hrun, hH, hO, hCL, hLen, hMax, hself, hother, hDS, hselc⟩ :=
    undo_pixel_step f pre post ps li hh hoff hli
  refine ⟨g, hrun, (hselc hsel).1, hDS, (hselc hsel).2, ?_, ?_⟩
  · intro p psd hps
    rw [hself p, hps]
  · intro p hps
    rw [hself p, hps]

/-- Witness: a concrete mid-selection document whose (single) history entry
is a pixel entry. -/
theorem undo_pixel_discards_selection_witness :
    ∃ g, c10File.Undo = .ok g ∧
      (∀ p, g.Selection p = none) ∧
      g.DoingSelection = false ∧
      g.SelectionMoving = false ∧
      (∀ p psd, psSingle ⟨1, 1⟩ Color.Transparent Color.Red p = some psd →
        layerColor g 0 p = psd.Prev) ∧
      (∀ p, psSingle ⟨1, 1⟩ Color.Transparent Color.Red p = none →
        layerColor g 0 p = layerColor c10File 0 p) :=
  undo_pixel_discards_selection c10File [] [] (psSingle ⟨1, 1⟩ Color.Transparent Color.Red) 0
    rfl rfl rfl (by decide)
